import Mathlib

/-!
Verification of the activity-tracker sampling/merging engine.

This file gives a shallow embedding, in Lean 4, of the core of
`src/activity_tracker/tracker/activity_tracker.py` (class `ActivityTracker`)
together with a model of the JSON (de)serialization used by its
persistence layer (Python's `json.load` / `json.dump(..., indent=4)`,
restricted to the value shapes the tracker reads and writes: strings,
integers, booleans, null, arrays and objects).

Conventions of the embedding:
* Python `time.time()` instants are modelled as rationals (`ℚ`).
* A Python dict holding an activity record is modelled by `ActivityRecord`;
  the optional presence of the `is_typing` key is an `Option Bool`.
* Raised exceptions are modelled with `Except`/`Option` results.
* The day file on disk is modelled by the `disk` field of `TrackerState`
  (`none` = no file); `_save_activities` overwrites it with the current
  in-memory timeline.
* Python string `lower()` is modelled by mapping `Char.toLower`
  (faithful on ASCII, which is all the classifier's keyword tables use).
-/

/-! ## Generic string helpers (Python `in`, `replace`, `lower`) -/

/-- Python `s.lower()`, modelled characterwise (ASCII case folding). -/
def pyLower (s : String) : String := String.mk (s.data.map Char.toLower)

/-- Python substring test `needle in hay` on character lists. -/
def listContainsSub (hay needle : List Char) : Bool :=
  needle.isPrefixOf hay ||
    match hay with
    | [] => false
    | _ :: t => listContainsSub t needle

/-- Python substring test `needle in hay` on strings. -/
def strContainsSub (hay needle : String) : Bool :=
  listContainsSub hay.data needle.data

/-- The literal suffix the tracker appends to titles while the user types. -/
def typingPat : List Char := " (typing)".data

/-- One left-to-right, non-overlapping removal pass of `" (typing)"`,
fuelled so that it is structurally recursive (fuel `≥` input length makes
the fuel-exhausted branch unreachable).  This models Python
`s.replace(" (typing)", "")`. -/
def stripTypingAux : Nat → List Char → List Char
  | 0, l => l
  | _ + 1, [] => []
  | fuel + 1, c :: rest =>
    if typingPat.isPrefixOf (c :: rest) then stripTypingAux fuel ((c :: rest).drop 9)
    else c :: stripTypingAux fuel rest

/-- Python `title.replace(" (typing)", "")`. -/
def stripTypingSuffix (s : String) : String :=
  String.mk (stripTypingAux s.data.length s.data)

/-! ## Data model -/

/-- The dictionary returned by `WindowTracker.get_active_window_info`
(`None` is modelled at use sites by `Option WindowInfo`). -/
structure WindowInfo where
  app : String
  title : String
  pid : Option Int
deriving DecidableEq, Repr

/-- One persisted activity span (`activity` dict in the source).
`isTyping = none` models the absence of the `is_typing` key (idle-synthesized
records do not carry it). -/
structure ActivityRecord where
  timestamp : String
  app : String
  title : String
  category : String
  duration : Nat
  isTyping : Option Bool
deriving DecidableEq, Repr

/-- The parts of the configuration dictionary that `categorize_activity`
reads: `config['ignored_apps']` and `config['categories']` (an
order-significant association list, mirroring Python dict iteration order). -/
structure Config where
  ignoredApps : List String
  categories : List (String × List String)
deriving DecidableEq, Repr

/-- Debug log lines relevant to idle/typing transitions (the `print`
calls in the source); used to state that transitions are logged once. -/
inductive LogMsg where
  | becameIdle
  | noLongerIdleKeyboard
  | noLongerIdleMouse
  | noLongerIdleWindow
  | startedTyping
deriving DecidableEq, Repr

/-- The mutable state of one `ActivityTracker` instance, plus the `disk`
field modelling the content of today's log file (`none` = file absent). -/
structure TrackerState where
  config : Config
  activities : List ActivityRecord
  currentActivity : Option ActivityRecord
  samplingInterval : Nat
  lastMousePos : Option String
  lastWindowTitle : Option String
  isTyping : Bool
  lastKeypressTime : ℚ
  keyboardListener : Bool
  lastActivityTime : ℚ
  isIdle : Bool
  disk : Option (List ActivityRecord)

/-- `self.typing_inactivity_threshold = 2.0` (seconds). -/
def typingInactivityThreshold : ℚ := 2

/-- `self.idle_threshold = 30` (seconds); set once in `__init__` and never
reassigned. -/
def idleThreshold : ℚ := 30

/-! ## Tracker operations -/

/-- `ActivityTracker._on_key_press` (pynput callback): refresh the keypress
and interaction timestamps, set the typing flag, clear the idle flag;
transition messages are printed only when the respective flag flips. -/
def onKeyPress (st : TrackerState) (now : ℚ) : TrackerState × List LogMsg :=
  let st1 := { st with lastKeypressTime := now, lastActivityTime := now }
  let (st2, log1) :=
    if st1.isTyping = false then ({ st1 with isTyping := true }, [LogMsg.startedTyping])
    else (st1, [])
  if st2.isIdle then ({ st2 with isIdle := false }, log1 ++ [LogMsg.noLongerIdleKeyboard])
  else (st2, log1)

/-- `ActivityTracker._check_typing_status`: `false` immediately when the
keyboard listener is not running; otherwise lazily expire the typing flag
when the last keypress is older than the threshold, and return it. -/
def checkTypingStatus (st : TrackerState) (now : ℚ) : Bool × TrackerState :=
  if st.keyboardListener = false then (false, st)
  else
    let elapsed := now - st.lastKeypressTime
    if st.isTyping = true ∧ elapsed > typingInactivityThreshold then
      (false, { st with isTyping := false })
    else (st.isTyping, st)

/-- `ActivityTracker.categorize_activity`: ignored-apps check, then the
configured keyword categories in declaration order, then the fixed
title heuristics, then `"Other"`. -/
def categorizeActivity (cfg : Config) (windowInfo : Option WindowInfo) : String :=
  match windowInfo with
  | none => "Idle"
  | some w =>
    let appName := pyLower w.app
    let title := pyLower w.title
    if (cfg.ignoredApps.map pyLower).contains appName then "System"
    else
      match cfg.categories.find? (fun p => p.2.any (fun a => strContainsSub appName (pyLower a))) with
      | some p => p.1
      | none =>
        if strContainsSub title "email" || strContainsSub title "mail" then "Communication"
        else if strContainsSub title "document" || strContainsSub title ".doc" ||
            strContainsSub title ".txt" then "Documents"
        else if strContainsSub title "code" || strContainsSub title "script" ||
            [".py", ".js", ".html", ".css", ".java", ".go", ".c", ".cpp"].any
              (fun ext => strContainsSub title ext) then "Coding"
        else "Other"

/-- The fixed record synthesized for an idle tick (lines 147–153 and
161–167 of the source; note it carries no `is_typing` key). -/
def idleRecord (timestamp : String) (interval : Nat) : ActivityRecord :=
  { timestamp := timestamp, app := "Idle", title := "User inactive",
    category := "Idle", duration := interval, isTyping := none }

/-- The `activity` dict built by `log_current_activity` for one tick,
together with the state as mutated by `_check_typing_status` (the only
state effect of this phase).  `probe` is what
`WindowTracker.get_active_window_info()` returned (queried only when the
idle flag is clear; passing it as a parameter is harmless since the idle
branch ignores it). -/
def mkActivity (st : TrackerState) (timestamp : String) (probe : Option WindowInfo)
    (now : ℚ) : ActivityRecord × TrackerState :=
  if st.isIdle then (idleRecord timestamp st.samplingInterval, st)
  else
    match probe with
    | none => (idleRecord timestamp st.samplingInterval, st)
    | some wi =>
      let category := categorizeActivity st.config (some wi)
      let (isTyping, st') := checkTypingStatus st now
      let titleSuffix := if isTyping then " (typing)" else ""
      ({ timestamp := timestamp, app := wi.app, title := wi.title ++ titleSuffix,
         category := category, duration := st.samplingInterval,
         isTyping := some isTyping }, st')

/-- The `is_same_activity` test (lines 186–189): app equal and titles equal
after stripping the `" (typing)"` suffix from both. -/
def isSameActivity (cur activity : ActivityRecord) : Bool :=
  cur.app == activity.app &&
    stripTypingSuffix cur.title == stripTypingSuffix activity.title

/-- Mutate the last element of a list in place (Python `l[-1]`). -/
def updateLast (l : List ActivityRecord) (f : ActivityRecord → ActivityRecord) :
    List ActivityRecord :=
  match l with
  | [] => []
  | [x] => [f x]
  | x :: y :: t => x :: updateLast (y :: t) f

/-- `ActivityTracker._save_activities`: overwrite today's file with the
full in-memory timeline. -/
def saveActivities (st : TrackerState) : TrackerState :=
  { st with disk := some st.activities }

/-- The merge guard of `log_current_activity` (line 184 together with the
inner `is_same_activity` test): merge only when the idle flag is clear, a
current activity and a non-empty timeline exist, and the records match.
(The Python guard also tests `'app' in activity`, which is always true of
the dicts this method builds.) -/
def mergeGuard (st : TrackerState) (activity : ActivityRecord) : Bool :=
  match st.currentActivity with
  | some cur => !st.isIdle && !st.activities.isEmpty && isSameActivity cur activity
  | none => false

/-- The in-place update the merge branch applies to `activities[-1]`:
bump the duration by one sampling interval and, when the new record carries
an `is_typing` key, refresh `is_typing` and `title`. -/
def mergeInto (activity : ActivityRecord) (interval : Nat)
    (lastRec : ActivityRecord) : ActivityRecord :=
  let bumped := { lastRec with duration := lastRec.duration + interval }
  match activity.isTyping with
  | some b => { bumped with isTyping := some b, title := activity.title }
  | none => bumped

/-- The second half of `log_current_activity` (lines 183–204): the merge
branch mutates the last record, re-points `current_activity`, and
`return`s — skipping `_save_activities`, which only the append path
reaches. -/
def mergeOrAppend (st : TrackerState) (activity : ActivityRecord) : TrackerState :=
  if mergeGuard st activity then
    let mergedActs := updateLast st.activities (mergeInto activity st.samplingInterval)
    { st with activities := mergedActs, currentActivity := mergedActs.getLast? }
  else
    saveActivities { st with activities := st.activities ++ [activity],
                             currentActivity := some activity }

/-- `ActivityTracker.log_current_activity`: build the tick's record, then
merge-or-append. -/
def logCurrentActivity (st0 : TrackerState) (timestamp : String)
    (probe : Option WindowInfo) (now : ℚ) : TrackerState :=
  let pr := mkActivity st0 timestamp probe now
  mergeOrAppend pr.2 pr.1

/-- `ActivityTracker.check_idle_status`: once per tick, set the idle flag
when the interaction gap reaches the threshold; the transition is printed
only when the flag was clear.  The flag is never cleared here. -/
def checkIdleStatus (st : TrackerState) (now : ℚ) : Bool × TrackerState × List LogMsg :=
  let idleDuration := now - st.lastActivityTime
  if idleDuration ≥ idleThreshold then
    if st.isIdle = false then (true, { st with isIdle := true }, [LogMsg.becameIdle])
    else (true, st, [])
  else (false, st, [])

/-- The mouse-position poll at the top of the `start_tracking` loop
(lines 239–253 plus the cache refresh at line 274): `obs = none` models the
`xdotool` subprocess failing (exception caught, nothing changes). -/
def pollMouseStep (st : TrackerState) (obs : Option String) (now : ℚ) :
    TrackerState × List LogMsg :=
  match obs with
  | none => (st, [])
  | some cur =>
    match st.lastMousePos with
    | none => ({ st with lastMousePos := some cur }, [])
    | some prev =>
      if cur ≠ prev then
        let st1 := { st with lastActivityTime := now, lastMousePos := some cur }
        if st1.isIdle then ({ st1 with isIdle := false }, [LogMsg.noLongerIdleMouse])
        else (st1, [])
      else ({ st with lastMousePos := some cur }, [])

/-- The foreground-window-title poll of the loop (lines 256–271):
`obs = none` models the subprocess failing. -/
def pollWindowStep (st : TrackerState) (obs : Option String) (now : ℚ) :
    TrackerState × List LogMsg :=
  match obs with
  | none => (st, [])
  | some cur =>
    match st.lastWindowTitle with
    | none => ({ st with lastWindowTitle := some cur }, [])
    | some prev =>
      if cur ≠ prev then
        let st1 := { st with lastActivityTime := now, lastWindowTitle := some cur }
        if st1.isIdle then ({ st1 with isIdle := false }, [LogMsg.noLongerIdleWindow])
        else (st1, [])
      else (st, [])

/-- Inputs of one sampling tick as fed to `log_current_activity`. -/
structure TickInput where
  timestamp : String
  probe : Option WindowInfo
  now : ℚ

/-- Run `log_current_activity` over a sequence of ticks. -/
def runTicks (st : TrackerState) (inputs : List TickInput) : TrackerState :=
  inputs.foldl (fun s i => logCurrentActivity s i.timestamp i.probe i.now) st

/-- A fresh tracker state as built by `__init__` when no day file exists,
the keyboard listener failed to start, and the configuration file holds
empty `ignored_apps`/`categories` tables with the default 30-second
sampling interval. -/
def initState : TrackerState :=
  { config := { ignoredApps := [], categories := [] },
    activities := [], currentActivity := none, samplingInterval := 30,
    lastMousePos := none, lastWindowTitle := none,
    isTyping := false, lastKeypressTime := 0, keyboardListener := false,
    lastActivityTime := 0, isIdle := false, disk := none }


/-! ## Basic lemmas about the string helpers -/

theorem typingPat_length : typingPat.length = 9 := by decide

/-- Fuel irrelevance for the fuelled `replace` scan: any fuel covering the
input length gives the same result. -/
theorem stripTypingAux_fuel :
    ∀ (f1 : Nat) (l : List Char) (f2 : Nat),
      l.length ≤ f1 → l.length ≤ f2 → stripTypingAux f1 l = stripTypingAux f2 l := by
  intro f1
  induction f1 with
  | zero =>
    intro l f2 h1 _
    have hl : l = [] := List.eq_nil_of_length_eq_zero (Nat.le_zero.mp h1)
    subst hl
    cases f2 <;> simp [stripTypingAux]
  | succ f ih =>
    intro l f2 h1 h2
    cases l with
    | nil => cases f2 <;> simp [stripTypingAux]
    | cons c rest =>
      cases f2 with
      | zero => simp at h2
      | succ g =>
        simp only [stripTypingAux]
        by_cases hp : typingPat.isPrefixOf (c :: rest) = true
        · rw [if_pos hp, if_pos hp]
          exact ih _ _ (by simp at h1 ⊢; omega) (by simp at h2 ⊢; omega)
        · rw [if_neg hp, if_neg hp]
          rw [ih rest g (by simp at h1 ⊢; omega) (by simp at h2 ⊢; omega)]

/-- The pattern `" (typing)"` is bifix-free: none of its proper non-empty
suffixes is one of its prefixes. -/
theorem typingPat_bifix_free :
    ∀ k < 9, 1 ≤ k → typingPat.drop k ≠ typingPat.take (9 - k) := by decide

/-- For a non-empty `l`, appending the pattern does not change whether the
pattern is a prefix (no occurrence can straddle the boundary). -/
theorem pat_isPrefixOf_append (l : List Char) (hne : l ≠ []) :
    typingPat.isPrefixOf (l ++ typingPat) = typingPat.isPrefixOf l := by
  by_cases hp : typingPat.isPrefixOf l = true
  · rw [hp]
    rw [List.isPrefixOf_iff_prefix] at hp ⊢
    exact hp.trans (List.prefix_append l typingPat)
  · rw [Bool.eq_false_iff.mpr hp]
    rw [Bool.eq_false_iff]
    intro habs
    rw [List.isPrefixOf_iff_prefix] at habs
    have htake : typingPat = (l ++ typingPat).take 9 := by
      rw [List.prefix_iff_eq_take] at habs
      simpa [typingPat_length] using habs
    by_cases hlen : 9 ≤ l.length
    · -- the occurrence would lie entirely inside l, hence be a prefix of l
      apply hp
      rw [List.isPrefixOf_iff_prefix, List.prefix_iff_eq_take, typingPat_length]
      rw [htake, List.take_append_of_le_length hlen]
    · -- short l: a straddling occurrence contradicts bifix-freeness
      push_neg at hlen
      have hk1 : 1 ≤ l.length := by
        cases l with
        | nil => exact absurd rfl hne
        | cons a t => simp
      have htake2 : typingPat = l ++ typingPat.take (9 - l.length) := by
        conv_lhs => rw [htake]
        rw [List.take_append_eq_append_take,
          List.take_of_length_le (by omega)]
      have hdrop : typingPat.drop l.length = typingPat.take (9 - l.length) := by
        conv_lhs => rw [htake2]
        rw [List.drop_left]
      exact typingPat_bifix_free l.length hlen hk1 hdrop

theorem stripTypingAux_nil (f : Nat) : stripTypingAux f ([] : List Char) = [] := by
  cases f <;> rfl

theorem stripTypingAux_pat (f : Nat) : stripTypingAux (f + 1) typingPat = [] := by
  show stripTypingAux (f + 1) (' ' :: "(typing)".data) = []
  simp only [stripTypingAux]
  rw [if_pos (by decide)]
  have hd : ((' ' :: "(typing)".data).drop 9 : List Char) = [] := by decide
  rw [hd, stripTypingAux_nil]

/-- Removing-all-occurrences boundary property: appending one copy of the
pattern is undone by the scan. -/
theorem stripTypingAux_append_pat :
    ∀ (fuel : Nat) (l : List Char), l.length + 9 ≤ fuel →
      stripTypingAux fuel (l ++ typingPat) = stripTypingAux fuel l := by
  intro fuel
  induction fuel with
  | zero => intro l h; omega
  | succ f ih =>
    intro l h
    cases l with
    | nil =>
      simp only [List.nil_append]
      rw [stripTypingAux_pat, stripTypingAux_nil]
    | cons c rest =>
      have hne : (c :: rest : List Char) ≠ [] := by simp
      have hpb := pat_isPrefixOf_append (c :: rest) hne
      by_cases hp : typingPat.isPrefixOf (c :: rest) = true
      · have hlen : 9 ≤ (c :: rest).length := by
          have := (List.isPrefixOf_iff_prefix.mp hp).length_le
          simpa [typingPat_length] using this
        have hstep : ((c :: rest) ++ typingPat : List Char) = c :: (rest ++ typingPat) := by simp
        rw [hstep]
        simp only [stripTypingAux]
        have hp2 : typingPat.isPrefixOf (c :: (rest ++ typingPat)) = true := by
          rw [← hstep, hpb]; exact hp
        rw [if_pos hp2, if_pos hp]
        have hdrop9 : (c :: (rest ++ typingPat)).drop 9 = (c :: rest).drop 9 ++ typingPat := by
          rw [← hstep]
          exact List.drop_append_of_le_length hlen
        rw [hdrop9]
        exact ih _ (by simp at h ⊢; omega)
      · have hstep : ((c :: rest) ++ typingPat : List Char) = c :: (rest ++ typingPat) := by simp
        rw [hstep]
        simp only [stripTypingAux]
        have hp2 : typingPat.isPrefixOf (c :: (rest ++ typingPat)) ≠ true := by
          rw [← hstep, hpb]; exact hp
        rw [if_neg hp2, if_neg hp]
        cases rest with
        | nil =>
          simp only [List.nil_append]
          have h9 : (0 : Nat) + 9 ≤ f := by simp at h; omega
          have := ih [] (by simpa using h9)
          simpa using this
        | cons d t =>
          congr 1
          exact ih (d :: t) (by simp at h ⊢; omega)

/-- String-level boundary property: stripping undoes appending the marker. -/
theorem stripTypingSuffix_append_pat (s : String) :
    stripTypingSuffix (s ++ " (typing)") = stripTypingSuffix s := by
  unfold stripTypingSuffix
  have hdata : (s ++ " (typing)").data = s.data ++ typingPat := by
    simp [typingPat, String.data_append]
  rw [hdata]
  congr 1
  have hlen : (s.data ++ typingPat).length = s.data.length + 9 := by
    simp [typingPat_length]
  rw [hlen]
  rw [stripTypingAux_append_pat (s.data.length + 9) s.data (by omega)]
  exact stripTypingAux_fuel _ _ _ (by omega) (by omega)

theorem stripTypingSuffix_append_empty (s : String) :
    stripTypingSuffix (s ++ "") = stripTypingSuffix s := by
  simp

/-! ## Lemmas about timeline editing -/

theorem updateLast_concat (l : List ActivityRecord) (x : ActivityRecord)
    (f : ActivityRecord → ActivityRecord) :
    updateLast (l ++ [x]) f = l ++ [f x] := by
  induction l with
  | nil => rfl
  | cons a l ih =>
    cases l with
    | nil => rfl
    | cons b t =>
      simp only [List.cons_append] at ih ⊢
      rw [updateLast]
      rw [ih]

theorem updateLast_length (l : List ActivityRecord) (f : ActivityRecord → ActivityRecord) :
    (updateLast l f).length = l.length := by
  induction l with
  | nil => rfl
  | cons a l ih =>
    cases l with
    | nil => rfl
    | cons b t =>
      show (a :: updateLast (b :: t) f).length = (a :: b :: t).length
      simp only [List.length_cons, ih]

/-! ## State-effect lemmas for the tick pipeline -/

theorem checkTypingStatus_snd (st : TrackerState) (now : ℚ) :
    (checkTypingStatus st now).2 = st ∨
      (checkTypingStatus st now).2 = { st with isTyping := false } := by
  unfold checkTypingStatus
  by_cases h1 : st.keyboardListener = false
  · rw [if_pos h1]; left; rfl
  · rw [if_neg h1]
    by_cases h2 : st.isTyping = true ∧ now - st.lastKeypressTime > typingInactivityThreshold
    · rw [if_pos h2]; right; rfl
    · rw [if_neg h2]; left; rfl

theorem mkActivity_snd (st : TrackerState) (ts : String) (probe : Option WindowInfo)
    (now : ℚ) :
    (mkActivity st ts probe now).2 = st ∨
      (mkActivity st ts probe now).2 = { st with isTyping := false } := by
  rcases probe with _ | wi
  · by_cases h : st.isIdle <;> simp [mkActivity, h]
  · by_cases h : st.isIdle
    · simp [mkActivity, h]
    · rcases hct : checkTypingStatus st now with ⟨b, st2⟩
      have hor := checkTypingStatus_snd st now
      rw [hct] at hor
      simpa [mkActivity, h, hct] using hor

theorem mkActivity_snd_activities (st : TrackerState) (ts : String)
    (probe : Option WindowInfo) (now : ℚ) :
    (mkActivity st ts probe now).2.activities = st.activities := by
  rcases mkActivity_snd st ts probe now with h | h <;> rw [h]

theorem mkActivity_snd_currentActivity (st : TrackerState) (ts : String)
    (probe : Option WindowInfo) (now : ℚ) :
    (mkActivity st ts probe now).2.currentActivity = st.currentActivity := by
  rcases mkActivity_snd st ts probe now with h | h <;> rw [h]

theorem mkActivity_snd_isIdle (st : TrackerState) (ts : String)
    (probe : Option WindowInfo) (now : ℚ) :
    (mkActivity st ts probe now).2.isIdle = st.isIdle := by
  rcases mkActivity_snd st ts probe now with h | h <;> rw [h]

theorem mkActivity_snd_samplingInterval (st : TrackerState) (ts : String)
    (probe : Option WindowInfo) (now : ℚ) :
    (mkActivity st ts probe now).2.samplingInterval = st.samplingInterval := by
  rcases mkActivity_snd st ts probe now with h | h <;> rw [h]

theorem mkActivity_snd_disk (st : TrackerState) (ts : String)
    (probe : Option WindowInfo) (now : ℚ) :
    (mkActivity st ts probe now).2.disk = st.disk := by
  rcases mkActivity_snd st ts probe now with h | h <;> rw [h]

theorem mkActivity_snd_config (st : TrackerState) (ts : String)
    (probe : Option WindowInfo) (now : ℚ) :
    (mkActivity st ts probe now).2.config = st.config := by
  rcases mkActivity_snd st ts probe now with h | h <;> rw [h]

theorem mkActivity_fst_of_idle (st : TrackerState) (ts : String)
    (probe : Option WindowInfo) (now : ℚ) (h : st.isIdle = true) :
    mkActivity st ts probe now = (idleRecord ts st.samplingInterval, st) := by
  cases probe <;> simp [mkActivity, h]

theorem mkActivity_fst_of_noprobe (st : TrackerState) (ts : String) (now : ℚ)
    (h : st.isIdle = false) :
    mkActivity st ts none now = (idleRecord ts st.samplingInterval, st) := by
  simp [mkActivity, h]

theorem mkActivity_of_active (st : TrackerState) (ts : String) (wi : WindowInfo)
    (now : ℚ) (h : st.isIdle = false) :
    mkActivity st ts (some wi) now =
      ({ timestamp := ts, app := wi.app,
         title := wi.title ++ (if (checkTypingStatus st now).1 then " (typing)" else ""),
         category := categorizeActivity st.config (some wi),
         duration := st.samplingInterval,
         isTyping := some (checkTypingStatus st now).1 },
       (checkTypingStatus st now).2) := by
  rcases hct : checkTypingStatus st now with ⟨b, st2⟩
  simp [mkActivity, h, hct]

theorem mergeGuard_dest (st : TrackerState) (a : ActivityRecord)
    (h : mergeGuard st a = true) :
    st.isIdle = false ∧ st.activities ≠ [] ∧
      ∃ cur, st.currentActivity = some cur ∧ isSameActivity cur a = true := by
  unfold mergeGuard at h
  rcases hcur : st.currentActivity with _ | cur
  · rw [hcur] at h; exact absurd h (by simp)
  · rw [hcur] at h
    simp only [Bool.and_eq_true, Bool.not_eq_true'] at h
    refine ⟨h.1.1, ?_, cur, rfl, h.2⟩
    intro habs
    rw [habs] at h
    simp at h

theorem mergeOrAppend_of_merge (st : TrackerState) (a : ActivityRecord)
    (h : mergeGuard st a = true) :
    mergeOrAppend st a =
      { st with activities := updateLast st.activities (mergeInto a st.samplingInterval),
                currentActivity :=
                  (updateLast st.activities (mergeInto a st.samplingInterval)).getLast? } := by
  simp [mergeOrAppend, h]

theorem mergeOrAppend_of_append (st : TrackerState) (a : ActivityRecord)
    (h : mergeGuard st a = false) :
    mergeOrAppend st a =
      { st with activities := st.activities ++ [a], currentActivity := some a,
                disk := some (st.activities ++ [a]) } := by
  simp [mergeOrAppend, h, saveActivities]

theorem mergeInto_timestamp (a : ActivityRecord) (i : Nat) (x : ActivityRecord) :
    (mergeInto a i x).timestamp = x.timestamp := by
  unfold mergeInto; cases a.isTyping <;> rfl

theorem mergeInto_app (a : ActivityRecord) (i : Nat) (x : ActivityRecord) :
    (mergeInto a i x).app = x.app := by
  unfold mergeInto; cases a.isTyping <;> rfl

theorem mergeInto_category (a : ActivityRecord) (i : Nat) (x : ActivityRecord) :
    (mergeInto a i x).category = x.category := by
  unfold mergeInto; cases a.isTyping <;> rfl

theorem mergeInto_duration (a : ActivityRecord) (i : Nat) (x : ActivityRecord) :
    (mergeInto a i x).duration = x.duration + i := by
  unfold mergeInto; cases a.isTyping <;> rfl

/-! ## Concrete scenario material -/

/-- Window observed in the concrete two-tick scenarios. -/
def editorWindow : WindowInfo := { app := "Editor", title := "file.py", pid := none }

/-- Two consecutive ticks observing the same window, from a fresh state. -/
def c2Run : TrackerState :=
  logCurrentActivity (logCurrentActivity initState "t1" (some editorWindow) 0)
    "t2" (some editorWindow) 30

/-- A real, non-idle window whose fields happen to coincide with the
synthesized idle fields. -/
def idleNamedWindow : WindowInfo := { app := "Idle", title := "User inactive", pid := none }

/-- State after one probe-failure tick from a fresh state: the timeline
holds a single synthesized idle record. -/
def c3State1 : TrackerState := logCurrentActivity initState "t1" none 0

/-! ## Claim theorems: persistence and merge structure -/

/-- **C2.** The claim states that after *every* tick the full in-memory
timeline is persisted, so disk equals memory at the end of each tick and at
most one tick's data is at risk.  The code violates this: the merge branch
of `log_current_activity` `return`s before `_save_activities()` (only the
append path saves), so after a merging tick the file still holds the
pre-merge duration.  Failing input: two consecutive ticks over the same
window from a fresh state — after tick 2 memory holds duration 60 but the
file holds duration 30.  (Both legacy variants `bkp/main.py` and
`bkp/main_v2.py` save unconditionally after merge-or-append, and the spec
asserts the same intent, so this early return is a slip in the refactor.) -/
theorem C2_merge_tick_skips_persist :
    c2Run.activities =
      [{ timestamp := "t1", app := "Editor", title := "file.py",
         category := "Coding", duration := 60, isTyping := some false }] ∧
    c2Run.disk =
      some [{ timestamp := "t1", app := "Editor", title := "file.py",
              category := "Coding", duration := 30, isTyping := some false }] ∧
    c2Run.disk ≠ some c2Run.activities := by
  refine ⟨by decide, by decide, by decide⟩

/-- **C3 (counterexample).** The claim states that idle-ness is part of the
merge key, so a non-idle tick observing an active window whose `(app,
title)` coincide with the synthesized idle fields appends a new record
rather than extending an idle span.  In the code the merge test only
consults the tick-time idle flag and `(app, stripped title)`: after a
probe-failure tick logged the synthesized idle record, a non-idle tick over
a real window named ("Idle", "User inactive") merges into that idle span
(one record of duration 60, which even acquires an `is_typing` key),
instead of appending a second record. -/
theorem C3_cex_active_window_extends_idle_span :
    c3State1.activities = [idleRecord "t1" 30] ∧
    (logCurrentActivity c3State1 "t2" (some idleNamedWindow) 30).activities =
      [{ timestamp := "t1", app := "Idle", title := "User inactive",
         category := "Idle", duration := 60, isTyping := some false }] := by
  exact ⟨by decide, by decide⟩

/-- **C3 (amended).** Merging is gated on the tick-time idle flag, not on
record idleness: a tick taken with the idle flag set always appends a fresh
synthesized idle record (never merges); but a non-idle tick whose record
matches the last record on `(app, title-with-typing-suffix-stripped)`
merges (no new record is appended) even when those fields coincide with the
synthesized idle fields. -/
theorem C3_amended_merge_gated_on_flag (st : TrackerState) (ts : String)
    (probe : Option WindowInfo) (now : ℚ) :
    (st.isIdle = true →
      (logCurrentActivity st ts probe now).activities
        = st.activities ++ [idleRecord ts st.samplingInterval]) ∧
    (∀ cur, st.isIdle = false → st.currentActivity = some cur →
      st.activities ≠ [] →
      isSameActivity cur (mkActivity st ts probe now).1 = true →
      (logCurrentActivity st ts probe now).activities.length
        = st.activities.length) := by
  constructor
  · intro hidle
    unfold logCurrentActivity
    rw [mkActivity_fst_of_idle st ts probe now hidle]
    show (mergeOrAppend st (idleRecord ts st.samplingInterval)).activities = _
    have hguard : mergeGuard st (idleRecord ts st.samplingInterval) = false := by
      unfold mergeGuard
      rcases hcur : st.currentActivity with _ | cur
      · rfl
      · simp [hidle]
    rw [mergeOrAppend_of_append _ _ hguard]
  · intro cur hidle hcur hne hsame
    unfold logCurrentActivity
    have hguard : mergeGuard (mkActivity st ts probe now).2
        (mkActivity st ts probe now).1 = true := by
      unfold mergeGuard
      rw [mkActivity_snd_currentActivity, hcur]
      simp only [Bool.and_eq_true, Bool.not_eq_true']
      refine ⟨⟨?_, ?_⟩, hsame⟩
      · rw [mkActivity_snd_isIdle]; exact hidle
      · rw [mkActivity_snd_activities]
        exact List.isEmpty_eq_false_iff_exists_mem.mpr
          (List.exists_mem_of_ne_nil _ hne)
    rw [mergeOrAppend_of_merge _ _ hguard]
    show (updateLast (mkActivity st ts probe now).2.activities _).length = _
    rw [updateLast_length, mkActivity_snd_activities]

/-- **C3 (amended), witness.**  Instantiates the merge part at the concrete
counterexample run: the non-idle tick over the window named
("Idle", "User inactive") does not grow the timeline. -/
theorem C3_amended_merge_gated_on_flag_witness :
    (logCurrentActivity c3State1 "t2" (some idleNamedWindow) 30).activities.length
      = c3State1.activities.length :=
  (C3_amended_merge_gated_on_flag c3State1 "t2" (some idleNamedWindow) 30).2
    (idleRecord "t1" 30) (by decide) (by decide) (by decide) (by decide)

/-- **C9.** On every tick all timeline records except the last are left
unchanged and the order is never changed: `log_current_activity` either
appends exactly one record to the existing timeline, or rewrites only the
last record — incrementing its duration by one sampling interval and
preserving its timestamp, app and category (only `title`/`is_typing` may be
refreshed) — leaving the prefix byte-for-byte intact. -/
theorem C9_merge_frame (st : TrackerState) (ts : String) (probe : Option WindowInfo)
    (now : ℚ) :
    (∃ r, (logCurrentActivity st ts probe now).activities = st.activities ++ [r]) ∨
    (∃ pre x r, st.activities = pre ++ [x] ∧
      (logCurrentActivity st ts probe now).activities = pre ++ [r] ∧
      r.timestamp = x.timestamp ∧ r.app = x.app ∧ r.category = x.category ∧
      r.duration = x.duration + st.samplingInterval) := by
  unfold logCurrentActivity
  have hacts : (mkActivity st ts probe now).2.activities = st.activities :=
    mkActivity_snd_activities st ts probe now
  have hsi : (mkActivity st ts probe now).2.samplingInterval = st.samplingInterval :=
    mkActivity_snd_samplingInterval st ts probe now
  by_cases hg : mergeGuard (mkActivity st ts probe now).2 (mkActivity st ts probe now).1 = true
  · right
    obtain ⟨-, hne0, -⟩ := mergeGuard_dest _ _ hg
    rw [hacts] at hne0
    refine ⟨st.activities.dropLast, st.activities.getLast hne0,
      mergeInto (mkActivity st ts probe now).1 st.samplingInterval
        (st.activities.getLast hne0),
      (List.dropLast_append_getLast hne0).symm, ?_,
      mergeInto_timestamp _ _ _, mergeInto_app _ _ _, mergeInto_category _ _ _,
      mergeInto_duration _ _ _⟩
    rw [mergeOrAppend_of_merge _ _ hg]
    show updateLast (mkActivity st ts probe now).2.activities
        (mergeInto (mkActivity st ts probe now).1
          (mkActivity st ts probe now).2.samplingInterval) = _
    rw [hacts, hsi]
    conv_lhs => rw [← List.dropLast_append_getLast hne0]
    exact updateLast_concat _ _ _
  · left
    refine ⟨(mkActivity st ts probe now).1, ?_⟩
    have hgf : mergeGuard (mkActivity st ts probe now).2
        (mkActivity st ts probe now).1 = false := by
      revert hg
      cases mergeGuard (mkActivity st ts probe now).2 (mkActivity st ts probe now).1 <;> simp
    rw [mergeOrAppend_of_append _ _ hgf]
    show (mkActivity st ts probe now).2.activities ++ [(mkActivity st ts probe now).1]
      = st.activities ++ [(mkActivity st ts probe now).1]
    rw [hacts]

/-! ## The merge key seen through one active tick -/

/-- The merge key restricted to what an active tick compares against a
window observation: app equality and title equality after stripping the
typing suffix from both sides. -/
def matchesWindow (cur : ActivityRecord) (wi : WindowInfo) : Bool :=
  cur.app == wi.app &&
    stripTypingSuffix cur.title == stripTypingSuffix wi.title

theorem matchesWindow_dest (r : ActivityRecord) (wi : WindowInfo)
    (h : matchesWindow r wi = true) :
    r.app = wi.app ∧ stripTypingSuffix r.title = stripTypingSuffix wi.title := by
  unfold matchesWindow at h
  simpa only [Bool.and_eq_true, beq_iff_eq] using h

theorem matchesWindow_intro (r : ActivityRecord) (wi : WindowInfo)
    (h1 : r.app = wi.app)
    (h2 : stripTypingSuffix r.title = stripTypingSuffix wi.title) :
    matchesWindow r wi = true := by
  unfold matchesWindow
  simp [h1, h2]

theorem stripTypingSuffix_append_suffix (s : String) (b : Bool) :
    stripTypingSuffix (s ++ (if b then " (typing)" else "")) = stripTypingSuffix s := by
  cases b
  · simp
  · simpa using stripTypingSuffix_append_pat s

/-- On a non-idle tick over a real window, the `is_same_activity` test
reduces to the `(app, stripped title)` comparison against the observation:
the typing suffix appended to the new record's title is invisible to it. -/
theorem isSameActivity_mkActivity_active (cur : ActivityRecord) (st : TrackerState)
    (ts : String) (wi : WindowInfo) (now : ℚ) (h : st.isIdle = false) :
    isSameActivity cur (mkActivity st ts (some wi) now).1 = matchesWindow cur wi := by
  rw [mkActivity_of_active st ts wi now h]
  unfold isSameActivity matchesWindow
  congr 1
  rw [stripTypingSuffix_append_suffix]

theorem mergeInto_title_of_isTyping_some (a : ActivityRecord) (i : Nat)
    (x : ActivityRecord) (b : Bool) (h : a.isTyping = some b) :
    (mergeInto a i x).title = a.title := by
  unfold mergeInto
  rw [h]

/-- Outcome of one non-idle tick whose observation matches the current
record: the tick merges, rewriting only the last record. -/
theorem log_merge_result (st : TrackerState) (ts : String) (wi : WindowInfo) (now : ℚ)
    (r : ActivityRecord) (pre : List ActivityRecord)
    (hidle : st.isIdle = false) (hcur : st.currentActivity = some r)
    (hacts : st.activities = pre ++ [r]) (hmatch : matchesWindow r wi = true) :
    ∃ r', logCurrentActivity st ts (some wi) now
        = { (mkActivity st ts (some wi) now).2 with
            activities := pre ++ [r'], currentActivity := some r' } ∧
      r'.app = r.app ∧
      stripTypingSuffix r'.title = stripTypingSuffix wi.title ∧
      r'.duration = r.duration + st.samplingInterval := by
  have hguard : mergeGuard (mkActivity st ts (some wi) now).2
      (mkActivity st ts (some wi) now).1 = true := by
    unfold mergeGuard
    rw [mkActivity_snd_currentActivity, hcur]
    simp only [Bool.and_eq_true, Bool.not_eq_true']
    refine ⟨⟨by rw [mkActivity_snd_isIdle]; exact hidle, ?_⟩, ?_⟩
    · rw [mkActivity_snd_activities, hacts]; simp
    · rw [isSameActivity_mkActivity_active r st ts wi now hidle]; exact hmatch
  have h1 : (mkActivity st ts (some wi) now).1.isTyping
      = some (checkTypingStatus st now).1 := by
    rw [mkActivity_of_active st ts wi now hidle]
  have h2 : (mkActivity st ts (some wi) now).1.title
      = wi.title ++ (if (checkTypingStatus st now).1 then " (typing)" else "") := by
    rw [mkActivity_of_active st ts wi now hidle]
  refine ⟨mergeInto (mkActivity st ts (some wi) now).1 st.samplingInterval r, ?_,
    mergeInto_app _ _ _, ?_, mergeInto_duration _ _ _⟩
  · unfold logCurrentActivity
    rw [mergeOrAppend_of_merge _ _ hguard]
    have hup : updateLast (mkActivity st ts (some wi) now).2.activities
        (mergeInto (mkActivity st ts (some wi) now).1
          (mkActivity st ts (some wi) now).2.samplingInterval)
        = pre ++ [mergeInto (mkActivity st ts (some wi) now).1 st.samplingInterval r] := by
      rw [mkActivity_snd_activities, mkActivity_snd_samplingInterval, hacts,
        updateLast_concat]
    rw [hup, List.getLast?_concat]
  · rw [mergeInto_title_of_isTyping_some _ _ _ _ h1, h2,
      stripTypingSuffix_append_suffix]

/-- Outcome of a tick whose merge guard fails: the record is appended and
the whole timeline is saved to disk. -/
theorem log_append_state (st : TrackerState) (ts : String) (probe : Option WindowInfo)
    (now : ℚ)
    (hguard : mergeGuard (mkActivity st ts probe now).2
      (mkActivity st ts probe now).1 = false) :
    logCurrentActivity st ts probe now =
      { (mkActivity st ts probe now).2 with
        activities := st.activities ++ [(mkActivity st ts probe now).1],
        currentActivity := some (mkActivity st ts probe now).1,
        disk := some (st.activities ++ [(mkActivity st ts probe now).1]) } := by
  unfold logCurrentActivity
  rw [mergeOrAppend_of_append _ _ hguard, mkActivity_snd_activities]

/-- A non-idle tick over a window that does not match the current record
(or with no current record) appends. -/
theorem log_fresh_tick (st : TrackerState) (wi : WindowInfo) (ts : String) (now : ℚ)
    (hidle : st.isIdle = false)
    (hfresh : ∀ cur, st.currentActivity = some cur → matchesWindow cur wi = false) :
    logCurrentActivity st ts (some wi) now =
      { (mkActivity st ts (some wi) now).2 with
        activities := st.activities ++ [(mkActivity st ts (some wi) now).1],
        currentActivity := some (mkActivity st ts (some wi) now).1,
        disk := some (st.activities ++ [(mkActivity st ts (some wi) now).1]) } := by
  apply log_append_state
  unfold mergeGuard
  rw [mkActivity_snd_currentActivity]
  rcases hcur : st.currentActivity with _ | cur
  · rfl
  · show (!(mkActivity st ts (some wi) now).2.isIdle &&
        !(mkActivity st ts (some wi) now).2.activities.isEmpty &&
        isSameActivity cur (mkActivity st ts (some wi) now).1) = false
    rw [isSameActivity_mkActivity_active cur st ts wi now hidle, hfresh cur hcur]
    simp

/-- Invariant propagation for a run of matching non-idle ticks: all of them
merge into the same last record, each adding one sampling interval. -/
theorem runTicks_merge_invariant :
    ∀ (inputs : List TickInput) (st : TrackerState) (wi : WindowInfo)
      (r : ActivityRecord) (pre : List ActivityRecord),
      st.isIdle = false → st.currentActivity = some r →
      st.activities = pre ++ [r] → matchesWindow r wi = true →
      (∀ i ∈ inputs, i.probe = some wi) →
      ∃ r', (runTicks st inputs).activities = pre ++ [r'] ∧
        matchesWindow r' wi = true ∧
        r'.duration = r.duration + st.samplingInterval * inputs.length := by
  intro inputs
  induction inputs with
  | nil =>
    intro st wi r pre h1 h2 h3 h4 _
    exact ⟨r, h3, h4, by simp⟩
  | cons i rest ih =>
    intro st wi r pre h1 h2 h3 h4 h5
    have hpi : i.probe = some wi := h5 i (by simp)
    obtain ⟨r', hst', happ, htitle, hdur⟩ :=
      log_merge_result st i.timestamp wi i.now r pre h1 h2 h3 h4
    have hrun : runTicks st (i :: rest)
        = runTicks (logCurrentActivity st i.timestamp i.probe i.now) rest := rfl
    rw [hrun, hpi, hst']
    have hmatch' : matchesWindow r' wi = true :=
      matchesWindow_intro r' wi (happ.trans (matchesWindow_dest r wi h4).1) htitle
    obtain ⟨r'', hacts'', hmatch'', hdur''⟩ :=
      ih { (mkActivity st i.timestamp (some wi) i.now).2 with
           activities := pre ++ [r'], currentActivity := some r' }
        wi r' pre (by simpa using mkActivity_snd_isIdle st i.timestamp (some wi) i.now ▸ h1)
        rfl rfl hmatch' (fun j hj => h5 j (by simp [hj]))
    refine ⟨r'', hacts'', hmatch'', ?_⟩
    have hsi : ({ (mkActivity st i.timestamp (some wi) i.now).2 with
        activities := pre ++ [r'],
        currentActivity := some r' } : TrackerState).samplingInterval
        = st.samplingInterval := mkActivity_snd_samplingInterval st i.timestamp (some wi) i.now
    rw [hdur'', hsi, hdur]
    simp only [List.length_cons, Nat.mul_succ]
    omega

/-- The three-tick Scenario A input (interval 30 s, same window each tick). -/
def c4Inputs : List TickInput :=
  [{ timestamp := "t1", probe := some editorWindow, now := 0 },
   { timestamp := "t2", probe := some editorWindow, now := 30 },
   { timestamp := "t3", probe := some editorWindow, now := 60 }]

/-- **C4.** For every sequence of `N ≥ 1` consecutive non-idle ticks within
one run that observe the identical window (and start a fresh span: no
current record, or one that does not match the observation), the timeline
gains exactly one record for that span, matching the observed `(app,
title)` (up to the typing suffix), with duration `samplingInterval × N`; in
particular, with interval 30 s, three consecutive ticks over
`{app:"Editor", title:"file.py"}` produce one record of duration 90. -/
theorem C4_identical_ticks_single_record (st : TrackerState) (wi : WindowInfo)
    (inputs : List TickInput)
    (hne : inputs ≠ [])
    (hidle : st.isIdle = false)
    (hprobe : ∀ i ∈ inputs, i.probe = some wi)
    (hfresh : ∀ cur, st.currentActivity = some cur → matchesWindow cur wi = false) :
    (∃ r, (runTicks st inputs).activities = st.activities ++ [r] ∧
      r.app = wi.app ∧
      stripTypingSuffix r.title = stripTypingSuffix wi.title ∧
      r.duration = st.samplingInterval * inputs.length) ∧
    (runTicks initState c4Inputs).activities =
      [{ timestamp := "t1", app := "Editor", title := "file.py",
         category := "Coding", duration := 90, isTyping := some false }] := by
  refine ⟨?_, by decide⟩
  cases inputs with
  | nil => exact absurd rfl hne
  | cons i rest =>
    have hpi : i.probe = some wi := hprobe i (by simp)
    have hstep := log_fresh_tick st wi i.timestamp i.now hidle hfresh
    have hrun : runTicks st (i :: rest)
        = runTicks (logCurrentActivity st i.timestamp i.probe i.now) rest := rfl
    rw [hrun, hpi, hstep]
    have hfst := mkActivity_of_active st i.timestamp wi i.now hidle
    have happ1 : (mkActivity st i.timestamp (some wi) i.now).1.app = wi.app := by
      rw [hfst]
    have htitle1 : stripTypingSuffix (mkActivity st i.timestamp (some wi) i.now).1.title
        = stripTypingSuffix wi.title := by
      rw [hfst]
      exact stripTypingSuffix_append_suffix wi.title _
    have hdur1 : (mkActivity st i.timestamp (some wi) i.now).1.duration
        = st.samplingInterval := by
      rw [hfst]
    obtain ⟨r', hacts', hmatch', hdur'⟩ :=
      runTicks_merge_invariant rest
        { (mkActivity st i.timestamp (some wi) i.now).2 with
          activities := st.activities ++ [(mkActivity st i.timestamp (some wi) i.now).1],
          currentActivity := some (mkActivity st i.timestamp (some wi) i.now).1,
          disk := some (st.activities ++ [(mkActivity st i.timestamp (some wi) i.now).1]) }
        wi (mkActivity st i.timestamp (some wi) i.now).1 st.activities
        (by simpa using mkActivity_snd_isIdle st i.timestamp (some wi) i.now ▸ hidle)
        rfl rfl
        (matchesWindow_intro _ wi happ1 htitle1)
        (fun j hj => hprobe j (by simp [hj]))
    obtain ⟨happ', htitle'⟩ := matchesWindow_dest r' wi hmatch'
    refine ⟨r', hacts', happ', htitle', ?_⟩
    have hsi : ({ (mkActivity st i.timestamp (some wi) i.now).2 with
        activities := st.activities ++ [(mkActivity st i.timestamp (some wi) i.now).1],
        currentActivity := some (mkActivity st i.timestamp (some wi) i.now).1,
        disk := some (st.activities ++ [(mkActivity st i.timestamp (some wi) i.now).1]) }
          : TrackerState).samplingInterval = st.samplingInterval :=
      mkActivity_snd_samplingInterval st i.timestamp (some wi) i.now
    rw [hdur', hsi, hdur1]
    simp only [List.length_cons, Nat.mul_succ]
    omega

/-- **C4, witness.** The theorem applied to Scenario A's concrete input. -/
theorem C4_identical_ticks_single_record_witness :
    ∃ r, (runTicks initState c4Inputs).activities = initState.activities ++ [r] ∧
      r.app = editorWindow.app ∧
      stripTypingSuffix r.title = stripTypingSuffix editorWindow.title ∧
      r.duration = initState.samplingInterval * c4Inputs.length :=
  (C4_identical_ticks_single_record initState editorWindow c4Inputs
    (by simp [c4Inputs])
    (by decide)
    (by intro i hi; fin_cases hi <;> rfl)
    (by intro cur h; simp [initState] at h)).1

/-- Scenario B's first-tick window. -/
def aEditorWindow : WindowInfo := { app := "Editor", title := "a.py", pid := none }

/-- **C5.** For every tick in which the idle flag is set or the window
probe returns nothing, the record built for that tick is exactly the
synthesized idle record — `app="Idle"`, `title="User inactive"`,
`category="Idle"`, duration one sampling interval — regardless of prior
state; and (Scenario B) a tick over `{app:"Editor", title:"a.py"}` followed
by a probe-failure tick yields two records of duration 30 each. -/
theorem C5_idle_synthesis (st : TrackerState) (ts : String)
    (probe : Option WindowInfo) (now : ℚ)
    (h : st.isIdle = true ∨ probe = none) :
    ((mkActivity st ts probe now).1 = idleRecord ts st.samplingInterval ∧
     (mkActivity st ts probe now).1.app = "Idle" ∧
     (mkActivity st ts probe now).1.title = "User inactive" ∧
     (mkActivity st ts probe now).1.category = "Idle" ∧
     (mkActivity st ts probe now).1.duration = st.samplingInterval) ∧
    (runTicks initState
        [{ timestamp := "t1", probe := some aEditorWindow, now := 0 },
         { timestamp := "t2", probe := none, now := 30 }]).activities =
      [{ timestamp := "t1", app := "Editor", title := "a.py", category := "Coding",
         duration := 30, isTyping := some false },
       idleRecord "t2" 30] := by
  refine ⟨?_, by decide⟩
  have hrec : (mkActivity st ts probe now).1 = idleRecord ts st.samplingInterval := by
    rcases h with hidle | hnone
    · rw [mkActivity_fst_of_idle st ts probe now hidle]
    · subst hnone
      by_cases hid : st.isIdle = true
      · rw [mkActivity_fst_of_idle st ts none now hid]
      · rw [mkActivity_fst_of_noprobe st ts now (by revert hid; cases st.isIdle <;> simp)]
  exact ⟨hrec, by rw [hrec]; rfl, by rw [hrec]; rfl, by rw [hrec]; rfl, by rw [hrec]; rfl⟩

/-- **C5, witness.** The theorem applied to a concrete idle-flagged state. -/
theorem C5_idle_synthesis_witness :
    ((mkActivity { initState with isIdle := true } "t9" none 0).1
        = idleRecord "t9" 30 ∧
     (mkActivity { initState with isIdle := true } "t9" none 0).1.app = "Idle" ∧
     (mkActivity { initState with isIdle := true } "t9" none 0).1.title
        = "User inactive" ∧
     (mkActivity { initState with isIdle := true } "t9" none 0).1.category = "Idle" ∧
     (mkActivity { initState with isIdle := true } "t9" none 0).1.duration = 30) ∧
    (runTicks initState
        [{ timestamp := "t1", probe := some aEditorWindow, now := 0 },
         { timestamp := "t2", probe := none, now := 30 }]).activities =
      [{ timestamp := "t1", app := "Editor", title := "a.py", category := "Coding",
         duration := 30, isTyping := some false },
       idleRecord "t2" 30] :=
  C5_idle_synthesis { initState with isIdle := true } "t9" none 0 (Or.inl rfl)

/-! ## The classifier against its specification wording -/

/-- Sub-occurrence survives dropping the needle's head character. -/
theorem listContainsSub_of_cons :
    ∀ (hay : List Char) (c : Char) (n : List Char),
      listContainsSub hay (c :: n) = true → listContainsSub hay n = true := by
  intro hay
  induction hay with
  | nil =>
    intro c n h
    simp [listContainsSub, List.isPrefixOf] at h
  | cons a t ih =>
    intro c n h
    unfold listContainsSub at h ⊢
    simp only [Bool.or_eq_true] at h ⊢
    rcases h with h | h
    · right
      have hn : n.isPrefixOf t = true := by
        simp only [List.isPrefixOf, Bool.and_eq_true] at h
        exact h.2
      unfold listContainsSub
      simp [hn]
    · right
      exact ih c n h

/-- A title containing `"email"` also contains `"mail"`. -/
theorem contains_mail_of_contains_email (t : String)
    (h : strContainsSub t "email" = true) : strContainsSub t "mail" = true := by
  unfold strContainsSub at h ⊢
  have he : ("email".data : List Char) = 'e' :: "mail".data := by decide
  rw [he] at h
  exact listContainsSub_of_cons _ _ _ h

/-- Modelled from the specification *wording* of claim C6 (for the
refinement comparison only): Idle when the observation is absent; System on
a case-insensitive ignored-app match; else the first configured category,
in declaration order, one of whose keywords occurs case-insensitively as a
substring of the app name; else the first matching fixed title heuristic
(mail → Communication; document/.doc/.txt → Documents; code/script/
source-file extension → Coding); else Other. -/
def classifySpec (cfg : Config) (obs : Option WindowInfo) : String :=
  match obs with
  | none => "Idle"
  | some w =>
    let appName := pyLower w.app
    let title := pyLower w.title
    if (cfg.ignoredApps.map pyLower).contains appName then "System"
    else
      match cfg.categories.find? (fun p => p.2.any (fun a => strContainsSub appName (pyLower a))) with
      | some p => p.1
      | none =>
        if strContainsSub title "mail" then "Communication"
        else if strContainsSub title "document" || strContainsSub title ".doc" ||
            strContainsSub title ".txt" then "Documents"
        else if strContainsSub title "code" || strContainsSub title "script" ||
            [".py", ".js", ".html", ".css", ".java", ".go", ".c", ".cpp"].any
              (fun ext => strContainsSub title ext) then "Coding"
        else "Other"

/-- **C6.** The classifier agrees, on every observation and configuration,
with the claim's staged description (Idle / ignored-apps System /
declaration-order keyword categories / fixed title heuristics with
mail → Communication, document/.doc/.txt → Documents,
code/script/extension → Coding / Other); and in Scenario D — categories
`{"Coding": ["vscode"]}`, observation `{app:"Code.exe",
title:"main.py — VS Code"}` — the app stage does not match and the title
heuristic yields `"Coding"`. -/
theorem C6_classifier_refinement :
    (∀ (cfg : Config) (obs : Option WindowInfo),
      classifySpec cfg obs = categorizeActivity cfg obs) ∧
    categorizeActivity { ignoredApps := [], categories := [("Coding", ["vscode"])] }
      (some { app := "Code.exe", title := "main.py — VS Code", pid := none })
      = "Coding" := by
  refine ⟨?_, by decide⟩
  intro cfg obs
  rcases obs with _ | w
  · rfl
  · unfold classifySpec categorizeActivity
    by_cases h1 : (cfg.ignoredApps.map pyLower).contains (pyLower w.app) = true
    · simp only [h1, if_pos]
    · simp only [Bool.not_eq_true] at h1
      simp only [h1, Bool.false_eq_true, if_false]
      cases hfind : cfg.categories.find?
          (fun p => p.2.any (fun a => strContainsSub (pyLower w.app) (pyLower a))) with
      | some p => rfl
      | none =>
        have hmail : (strContainsSub (pyLower w.title) "email"
            || strContainsSub (pyLower w.title) "mail")
            = strContainsSub (pyLower w.title) "mail" := by
          cases he : strContainsSub (pyLower w.title) "email"
          · simp
          · simp [contains_mail_of_contains_email _ he]
        rw [hmail]

/-! ## Idle-state machine and typing status -/

/-- **C7.** The tracker transitions to Idle exactly when, at a tick's idle
check, `now - lastInteractionTime ≥ idleThreshold` (30 seconds) while not
already idle — the transition is logged exactly once, not on every tick —
and every detected interaction (key press; pointer position differing from
the cached one; foreground window title differing from the cached one)
resets the interaction timestamp to `now` and, if currently idle,
transitions back to Active, logging that transition exactly once. -/
theorem C7_idle_transitions (st : TrackerState) (now : ℚ) (m p t q : String) :
    idleThreshold = 30 ∧
    ((checkIdleStatus st now).2.1.isIdle
        = (st.isIdle || decide (now - st.lastActivityTime ≥ idleThreshold))) ∧
    ((checkIdleStatus st now).2.2 = [LogMsg.becameIdle] ↔
        st.isIdle = false ∧ now - st.lastActivityTime ≥ idleThreshold) ∧
    ((checkIdleStatus st now).2.1.lastActivityTime = st.lastActivityTime) ∧
    ((onKeyPress st now).1.lastActivityTime = now) ∧
    ((onKeyPress st now).1.isIdle = false) ∧
    (LogMsg.noLongerIdleKeyboard ∈ (onKeyPress st now).2 ↔ st.isIdle = true) ∧
    (st.lastMousePos = some p → m ≠ p →
      (pollMouseStep st (some m) now).1.lastActivityTime = now ∧
      (pollMouseStep st (some m) now).1.isIdle = false ∧
      ((pollMouseStep st (some m) now).2 = [LogMsg.noLongerIdleMouse]
        ↔ st.isIdle = true)) ∧
    (st.lastWindowTitle = some q → t ≠ q →
      (pollWindowStep st (some t) now).1.lastActivityTime = now ∧
      (pollWindowStep st (some t) now).1.isIdle = false ∧
      ((pollWindowStep st (some t) now).2 = [LogMsg.noLongerIdleWindow]
        ↔ st.isIdle = true)) := by
  refine ⟨rfl, ?_, ?_, ?_, ?_, ?_, ?_, ?_, ?_⟩
  · unfold checkIdleStatus
    by_cases hth : now - st.lastActivityTime ≥ idleThreshold
    · rw [if_pos hth]
      by_cases hid : st.isIdle = false
      · simp [hid, hth]
      · simp only [Bool.not_eq_false] at hid
        simp [hid, hth]
    · rw [if_neg hth]
      simp [hth]
  · unfold checkIdleStatus
    by_cases hth : now - st.lastActivityTime ≥ idleThreshold
    · rw [if_pos hth]
      by_cases hid : st.isIdle = false
      · simp [hid, hth]
      · simp only [Bool.not_eq_false] at hid
        simp [hid, hth]
    · rw [if_neg hth]
      simp [hth]
  · unfold checkIdleStatus
    by_cases hth : now - st.lastActivityTime ≥ idleThreshold
    · rw [if_pos hth]
      by_cases hid : st.isIdle = false
      · simp [hid]
      · simp only [Bool.not_eq_false] at hid
        simp [hid]
    · rw [if_neg hth]
  · unfold onKeyPress
    by_cases hty : st.isTyping = false <;> by_cases hid : st.isIdle = true <;>
      simp [hty, hid]
  · unfold onKeyPress
    by_cases hty : st.isTyping = false <;> by_cases hid : st.isIdle = true <;>
      simp_all
  · unfold onKeyPress
    by_cases hty : st.isTyping = false <;> by_cases hid : st.isIdle = true <;>
      simp_all
  · intro hprev hne
    unfold pollMouseStep
    rw [hprev]
    by_cases hid : st.isIdle = true <;> simp [hne, hid]
  · intro hprev hne
    unfold pollWindowStep
    rw [hprev]
    by_cases hid : st.isIdle = true <;> simp [hne, hid]

/-- Concrete idle state with cached pointer/title values, for the C7
witness. -/
def c7St : TrackerState :=
  { initState with isIdle := true, lastMousePos := some "a",
                   lastWindowTitle := some "w" }

/-- **C7, witness.** The pointer-change clause applied at a concrete idle
state with a cached previous position: the interaction timestamp resets,
the idle flag clears, and the transition is logged. -/
theorem C7_idle_transitions_witness :
    (pollMouseStep c7St (some "b") 40).1.lastActivityTime = 40 ∧
    (pollMouseStep c7St (some "b") 40).1.isIdle = false ∧
    ((pollMouseStep c7St (some "b") 40).2 = [LogMsg.noLongerIdleMouse]
      ↔ c7St.isIdle = true) :=
  (C7_idle_transitions c7St 40 "b" "a" "x" "w").2.2.2.2.2.2.2.1 rfl (by decide)

/-- **C8.** `isCurrentlyTyping` returns false immediately (state untouched)
when no keyboard listener is active; otherwise, from the state a key press
at time `t` leaves behind (typing flag set, last-keypress time `t`), a
query at `now` returns true exactly when `now - t ≤ 2.0` seconds and false
once `now - t > 2.0`, clearing the internal flag as a side effect of
exactly that query (lazy expiry) and leaving the state untouched while
inside the window; a key press sets the typing flag and records its time. -/
theorem C8_typing_status (st : TrackerState) (now t : ℚ) :
    (st.keyboardListener = false → checkTypingStatus st now = (false, st)) ∧
    (st.keyboardListener = true → st.isTyping = true → st.lastKeypressTime = t →
      ((checkTypingStatus st now).1 = decide (now - t ≤ typingInactivityThreshold) ∧
       (checkTypingStatus st now).2.isTyping
          = decide (now - t ≤ typingInactivityThreshold) ∧
       (now - t ≤ typingInactivityThreshold → (checkTypingStatus st now).2 = st))) ∧
    ((onKeyPress st t).1.isTyping = true ∧
     (onKeyPress st t).1.lastKeypressTime = t) ∧
    typingInactivityThreshold = 2 := by
  refine ⟨?_, ?_, ?_, rfl⟩
  · intro h
    unfold checkTypingStatus
    rw [if_pos h]
  · intro hl hty hkt
    unfold checkTypingStatus
    rw [if_neg (by rw [hl]; simp)]
    rw [hkt]
    by_cases hwin : now - t ≤ typingInactivityThreshold
    · have hcond : ¬(st.isTyping = true ∧ now - t > typingInactivityThreshold) :=
        fun hc => absurd hc.2 (not_lt.mpr hwin)
      rw [if_neg hcond]
      simp [hty, decide_eq_true hwin]
      linarith
    · rw [if_pos ⟨hty, lt_of_not_le hwin⟩]
      simp [hwin]
  · unfold onKeyPress
    by_cases hty : st.isTyping = false <;> by_cases hid : st.isIdle = true <;>
      simp [hty, hid]

/-- Concrete post-keypress state for the C8 witness. -/
def c8St : TrackerState :=
  { initState with keyboardListener := true, isTyping := true,
                   lastKeypressTime := 1 }

/-- **C8, witness.** The lazy-expiry clause applied at a concrete
post-keypress state, queried inside the 2-second window. -/
theorem C8_typing_status_witness :
    (checkTypingStatus c8St 2).1 = decide ((2 : ℚ) - 1 ≤ typingInactivityThreshold) ∧
    (checkTypingStatus c8St 2).2.isTyping
      = decide ((2 : ℚ) - 1 ≤ typingInactivityThreshold) ∧
    ((2 : ℚ) - 1 ≤ typingInactivityThreshold → (checkTypingStatus c8St 2).2 = c8St) :=
  (C8_typing_status c8St 2 1).2.1 rfl rfl rfl

/-! ## JSON model

The persistence layer serializes with Python `json.dump(..., indent=4)`
and reads with `json.load`.  The model below covers the JSON subset the
tracker persists and reads back: strings, (arbitrary-precision) integers,
booleans, null, arrays and objects.  Objects are key-ordered association
lists, mirroring Python dicts (insertion order preserved; on parsing,
duplicate keys collapse with the last value winning at the first
occurrence's position, as `json.load` does). -/

mutual
inductive Json where
  | str (s : List Char) : Json
  | num (n : Int) : Json
  | bool (b : Bool) : Json
  | null : Json
  | arr (items : JsonArr) : Json
  | obj (fields : JsonObj) : Json
inductive JsonArr where
  | nil : JsonArr
  | cons (hd : Json) (tl : JsonArr) : JsonArr
inductive JsonObj where
  | nil : JsonObj
  | cons (key : List Char) (val : Json) (tl : JsonObj) : JsonObj
end

def lbrace : Char := Char.ofNat 123
def rbrace : Char := Char.ofNat 125

/-- The whitespace characters `json`'s scanner skips. -/
def isWsChar (c : Char) : Bool := c = ' ' || c = '\t' || c = '\n' || c = '\r'

def skipWs : List Char → List Char
  | [] => []
  | c :: rest => if isWsChar c then skipWs rest else c :: rest

def hexDigitChar (d : Nat) : Char :=
  if d < 10 then Char.ofNat (48 + d) else Char.ofNat (87 + d)

def hexVal (c : Char) : Option Nat :=
  if 48 ≤ c.toNat ∧ c.toNat ≤ 57 then some (c.toNat - 48)
  else if 97 ≤ c.toNat ∧ c.toNat ≤ 102 then some (c.toNat - 87)
  else if 65 ≤ c.toNat ∧ c.toNat ≤ 70 then some (c.toNat - 55)
  else none

def toHex4 (n : Nat) : List Char :=
  [hexDigitChar (n / 4096 % 16), hexDigitChar (n / 256 % 16),
   hexDigitChar (n / 16 % 16), hexDigitChar (n % 16)]

def readHex4 (c1 c2 c3 c4 : Char) : Option Nat :=
  match hexVal c1, hexVal c2, hexVal c3, hexVal c4 with
  | some v1, some v2, some v3, some v4 => some (((v1 * 16 + v2) * 16 + v3) * 16 + v4)
  | _, _, _, _ => none

/-- Python `json.encoder`'s ASCII escaping of one character: the two-char
shortcuts, printable ASCII verbatim, `\uXXXX` otherwise, with a surrogate
pair for astral characters. -/
def escapeChar (c : Char) : List Char :=
  if c.toNat = 34 then ['\\', '"']
  else if c.toNat = 92 then ['\\', '\\']
  else if c.toNat = 8 then ['\\', 'b']
  else if c.toNat = 9 then ['\\', 't']
  else if c.toNat = 10 then ['\\', 'n']
  else if c.toNat = 12 then ['\\', 'f']
  else if c.toNat = 13 then ['\\', 'r']
  else if 32 ≤ c.toNat ∧ c.toNat ≤ 126 then [c]
  else if c.toNat < 65536 then '\\' :: 'u' :: toHex4 c.toNat
  else '\\' :: 'u' :: toHex4 (55296 + (c.toNat - 65536) / 1024)
    ++ '\\' :: 'u' :: toHex4 (56320 + (c.toNat - 65536) % 1024)

def escapeChars : List Char → List Char
  | [] => []
  | c :: rest => escapeChar c ++ escapeChars rest

/-- Decimal digits of a natural number (fuelled so it is structurally
recursive; `natDigits` supplies enough fuel). -/
def natDigitsAux : Nat → Nat → List Char → List Char
  | 0, _, acc => acc
  | fuel + 1, n, acc =>
    let acc1 := Char.ofNat (48 + n % 10) :: acc
    if n < 10 then acc1 else natDigitsAux fuel (n / 10) acc1

def natDigits (n : Nat) : List Char := natDigitsAux (n + 1) n []

/-- Python `repr` of an int as `json.dump` writes it. -/
def dumpInt : Int → List Char
  | .ofNat n => natDigits n
  | .negSucc m => '-' :: natDigits (m + 1)

def isDigitChar (c : Char) : Bool := 48 ≤ c.toNat && c.toNat ≤ 57

/-- Consume a maximal run of decimal digits, accumulating their value. -/
def parseNatAux : List Char → Nat → Nat × List Char
  | [], acc => (acc, [])
  | c :: rest, acc =>
    if isDigitChar c then parseNatAux rest (acc * 10 + (c.toNat - 48))
    else (acc, c :: rest)

def mkSpaces (n : Nat) : List Char := List.replicate n ' '

mutual
/-- `json.dump(v, f, indent=4)` at indentation level `lvl`. -/
def dumpVal (lvl : Nat) : Json → List Char
  | .str s => '"' :: escapeChars s ++ ['"']
  | .num n => dumpInt n
  | .bool true => ['t', 'r', 'u', 'e']
  | .bool false => ['f', 'a', 'l', 's', 'e']
  | .null => ['n', 'u', 'l', 'l']
  | .arr .nil => ['[', ']']
  | .arr (.cons x xs) =>
      '[' :: '\n' :: dumpArrItems (lvl + 1) (.cons x xs)
        ++ '\n' :: mkSpaces (4 * lvl) ++ [']']
  | .obj .nil => [lbrace, rbrace]
  | .obj (.cons k v fs) =>
      lbrace :: '\n' :: dumpObjItems (lvl + 1) (.cons k v fs)
        ++ '\n' :: mkSpaces (4 * lvl) ++ [rbrace]
def dumpArrItems (lvl : Nat) : JsonArr → List Char
  | .nil => []
  | .cons x .nil => mkSpaces (4 * lvl) ++ dumpVal lvl x
  | .cons x (.cons y ys) =>
      mkSpaces (4 * lvl) ++ dumpVal lvl x
        ++ ',' :: '\n' :: dumpArrItems lvl (.cons y ys)
def dumpObjItems (lvl : Nat) : JsonObj → List Char
  | .nil => []
  | .cons k v .nil =>
      mkSpaces (4 * lvl) ++ '"' :: escapeChars k ++ '"' :: ':' :: ' ' :: dumpVal lvl v
  | .cons k v (.cons k2 v2 fs) =>
      mkSpaces (4 * lvl) ++ '"' :: escapeChars k ++ '"' :: ':' :: ' ' :: dumpVal lvl v
        ++ ',' :: '\n' :: dumpObjItems lvl (.cons k2 v2 fs)
end

/-- The byte (character) content `_save_activities` writes for a value. -/
def jsonDumps (v : Json) : List Char := dumpVal 0 v

/-- `json.load` string-escape decoding: the character following a
backslash, returning the decoded character and the remaining input
(`\\uXXXX` reads four hex digits; a high surrogate must be followed by an
escaped low surrogate, combined into one code point). -/
def unescapeShort (e : Char) : Option Char :=
  if e = '"' then some '"'
  else if e = '\\' then some '\\'
  else if e = '/' then some '/'
  else if e = 'b' then some (Char.ofNat 8)
  else if e = 'f' then some (Char.ofNat 12)
  else if e = 'n' then some '\n'
  else if e = 'r' then some '\r'
  else if e = 't' then some '\t'
  else none

def decodeEscape : List Char → Option (Char × List Char)
  | [] => none
  | e :: rest1 =>
    if e = 'u' then
      match rest1 with
      | c1 :: c2 :: c3 :: c4 :: rest2 =>
        match readHex4 c1 c2 c3 c4 with
        | none => none
        | some n =>
          if 55296 ≤ n ∧ n ≤ 56319 then
            match rest2 with
            | b1 :: u2 :: d1 :: d2 :: d3 :: d4 :: rest3 =>
              if b1 = '\\' ∧ u2 = 'u' then
                match readHex4 d1 d2 d3 d4 with
                | none => none
                | some m =>
                  if 56320 ≤ m ∧ m ≤ 57343 then
                    some (Char.ofNat (65536 + (n - 55296) * 1024 + (m - 56320)), rest3)
                  else none
              else none
            | _ => none
          else if 56320 ≤ n ∧ n ≤ 57343 then none
          else some (Char.ofNat n, rest2)
      | _ => none
    else (unescapeShort e).map (fun c2 => (c2, rest1))

/-- `json.load`'s string-literal scanner (strict mode: raw control
characters are rejected); fuelled so that it is structurally recursive
(each scanned unit consumes at least one input character, so fuel larger
than the input length is always enough — call sites pass `length + 1`). -/
def parseStrBody : Nat → List Char → Option (List Char × List Char)
  | 0, _ => none
  | fuel + 1, l =>
    match l with
    | [] => none
    | c :: rest =>
      if c = '"' then some ([], rest)
      else if c = '\\' then
        match decodeEscape rest with
        | none => none
        | some (c2, rest2) =>
          match parseStrBody fuel rest2 with
          | some (cs, r) => some (c2 :: cs, r)
          | none => none
      else if c.toNat < 32 then none
      else
        match parseStrBody fuel rest with
        | some (cs, r) => some (c :: cs, r)
        | none => none

/-- Python-dict insertion: an existing key keeps its position, its value is
overwritten; a new key goes to the end. -/
def dictInsert : JsonObj → List Char → Json → JsonObj
  | .nil, k, v => .cons k v .nil
  | .cons k1 v1 t, k, v =>
    if k1 = k then .cons k1 v t
    else .cons k1 v1 (dictInsert t k v)

def collapseAux : JsonObj → JsonObj → JsonObj
  | acc, .nil => acc
  | acc, .cons k v t => collapseAux (dictInsert acc k v) t

/-- `dict(pairs)`: how `json.load` builds an object from parsed members. -/
def collapseDups (fields : JsonObj) : JsonObj := collapseAux .nil fields

mutual
/-- `json.load`'s value scanner (fuelled; `jsonLoads` supplies fuel that
covers any input). -/
def parseValue : Nat → List Char → Option (Json × List Char)
  | 0, _ => none
  | fuel + 1, l =>
    match skipWs l with
    | [] => none
    | c :: rest =>
      if c = '"' then
        match parseStrBody (rest.length + 1) rest with
        | some (s, r) => some (.str s, r)
        | none => none
      else if c = '[' then
        match skipWs rest with
        | [] => none
        | d :: r2 =>
          if d = ']' then some (.arr .nil, r2)
          else
            match parseArrItems fuel (d :: r2) with
            | some (items, r3) => some (.arr items, r3)
            | none => none
      else if c = lbrace then
        match skipWs rest with
        | [] => none
        | d :: r2 =>
          if d = rbrace then some (.obj .nil, r2)
          else
            match parseObjItems fuel (d :: r2) with
            | some (fields, r3) => some (.obj (collapseDups fields), r3)
            | none => none
      else if c = 't' then
        match rest with
        | 'r' :: 'u' :: 'e' :: r => some (.bool true, r)
        | _ => none
      else if c = 'f' then
        match rest with
        | 'a' :: 'l' :: 's' :: 'e' :: r => some (.bool false, r)
        | _ => none
      else if c = 'n' then
        match rest with
        | 'u' :: 'l' :: 'l' :: r => some (.null, r)
        | _ => none
      else if c = '-' then
        match rest with
        | [] => none
        | d :: _ =>
          if isDigitChar d then
            let pr := parseNatAux rest 0
            some (.num (-(pr.1 : Int)), pr.2)
          else none
      else if isDigitChar c then
        let pr := parseNatAux (c :: rest) 0
        some (.num (pr.1 : Int), pr.2)
      else none
def parseArrItems : Nat → List Char → Option (JsonArr × List Char)
  | 0, _ => none
  | fuel + 1, l =>
    match parseValue fuel l with
    | none => none
    | some (v, r) =>
      match skipWs r with
      | ']' :: r2 => some (.cons v .nil, r2)
      | ',' :: r2 =>
        match parseArrItems fuel r2 with
        | some (vs, r3) => some (.cons v vs, r3)
        | none => none
      | _ => none
def parseObjItems : Nat → List Char → Option (JsonObj × List Char)
  | 0, _ => none
  | fuel + 1, l =>
    match skipWs l with
    | '"' :: r0 =>
      match parseStrBody (r0.length + 1) r0 with
      | none => none
      | some (k, r1) =>
        match skipWs r1 with
        | ':' :: r2 =>
          match parseValue fuel r2 with
          | none => none
          | some (v, r3) =>
            match skipWs r3 with
            | [] => none
            | d :: r4 =>
              if d = rbrace then some (.cons k v .nil, r4)
              else if d = ',' then
                match parseObjItems fuel r4 with
                | some (fields, r5) => some (.cons k v fields, r5)
                | none => none
              else none
        | _ => none
    | _ => none
end

/-- `json.load` of a whole file: one value, then only whitespace may
remain ("Extra data" otherwise). -/
def jsonLoads (l : List Char) : Option Json :=
  match parseValue (l.length + 1) l with
  | some (v, rest) => if (skipWs rest).isEmpty then some v else none
  | none => none

/-- The only exception class relevant to `_load_today_activities`. -/
inductive LoadError where
  | jsonDecodeError
deriving DecidableEq, Repr

/-- `ActivityTracker._load_today_activities`: when the day's file is absent
(`none`) nothing is loaded and the timeline stays empty; when present, its
content goes straight through `json.load` with **no** exception handler, so
malformed JSON surfaces as a raised `json.JSONDecodeError` (modelled as
`Except.error`). -/
def loadTodayActivities (file : Option (List Char)) : Except LoadError Json :=
  match file with
  | none => .ok (Json.arr .nil)
  | some contents =>
    match jsonLoads contents with
    | some v => .ok v
    | none => .error .jsonDecodeError

/-! ## Character and whitespace lemmas -/

theorem char_toNat_inj {c d : Char} (h : c.toNat = d.toNat) : c = d :=
  Char.ext (UInt32.ext h)

theorem char_ne_of_toNat_ne {c d : Char} (h : c.toNat ≠ d.toNat) : c ≠ d :=
  fun he => h (congrArg Char.toNat he)

theorem char_valid_ranges (c : Char) :
    c.toNat < 55296 ∨ (57343 < c.toNat ∧ c.toNat < 1114112) := by
  have := c.valid
  simpa [UInt32.isValidChar, Nat.isValidChar, Char.toNat] using this

theorem toNat_ofNat_valid {n : Nat} (h : n.isValidChar) : (Char.ofNat n).toNat = n := by
  simp [Char.ofNat, dif_pos h, Char.ofNatAux, Char.toNat, UInt32.toNat]

theorem toNat_ofNat_small {n : Nat} (h : n < 55296) : (Char.ofNat n).toNat = n :=
  toNat_ofNat_valid (Or.inl h)

theorem skipWs_cons_ws {c : Char} (h : isWsChar c = true) (l : List Char) :
    skipWs (c :: l) = skipWs l := by
  simp [skipWs, h]

theorem skipWs_cons_not_ws {c : Char} (h : isWsChar c = false) (l : List Char) :
    skipWs (c :: l) = c :: l := by
  simp [skipWs, h]

theorem skipWs_append_ws :
    ∀ (ws l : List Char), (∀ c ∈ ws, isWsChar c = true) →
      skipWs (ws ++ l) = skipWs l := by
  intro ws
  induction ws with
  | nil => intro l _; rfl
  | cons c t ih =>
    intro l h
    rw [List.cons_append, skipWs_cons_ws (h c (by simp))]
    exact ih l (fun d hd => h d (by simp [hd]))

theorem mkSpaces_all_ws (n : Nat) : ∀ c ∈ mkSpaces n, isWsChar c = true := by
  intro c hc
  rw [List.eq_of_mem_replicate hc]
  decide

theorem skipWs_idem : ∀ l : List Char, skipWs (skipWs l) = skipWs l := by
  intro l
  induction l with
  | nil => rfl
  | cons c t ih =>
    by_cases h : isWsChar c = true
    · rw [skipWs_cons_ws h, ih]
    · have h' : isWsChar c = false := by revert h; cases isWsChar c <;> simp
      rw [skipWs_cons_not_ws h', skipWs_cons_not_ws h']

/-! ## Hex and decimal round-trips -/

theorem hexVal_hexDigitChar (d : Nat) (h : d < 16) :
    hexVal (hexDigitChar d) = some d := by
  unfold hexDigitChar hexVal
  by_cases h10 : d < 10
  · rw [if_pos h10]
    have ht : (Char.ofNat (48 + d)).toNat = 48 + d := toNat_ofNat_small (by omega)
    rw [ht, if_pos (by omega)]
    congr 1
    omega
  · rw [if_neg h10]
    have ht : (Char.ofNat (87 + d)).toNat = 87 + d := toNat_ofNat_small (by omega)
    rw [ht, if_neg (by omega), if_pos (by omega)]
    congr 1
    omega

theorem readHex4_toHex4 (n : Nat) (h : n < 65536) :
    readHex4 (hexDigitChar (n / 4096 % 16)) (hexDigitChar (n / 256 % 16))
      (hexDigitChar (n / 16 % 16)) (hexDigitChar (n % 16)) = some n := by
  unfold readHex4
  rw [hexVal_hexDigitChar _ (by omega), hexVal_hexDigitChar _ (by omega),
    hexVal_hexDigitChar _ (by omega), hexVal_hexDigitChar _ (by omega)]
  show some (((n / 4096 % 16 * 16 + n / 256 % 16) * 16 + n / 16 % 16) * 16 + n % 16)
    = some n
  congr 1
  omega

theorem natDigitsAux_acc :
    ∀ (fuel n : Nat) (acc : List Char), n < fuel →
      natDigitsAux fuel n acc = natDigitsAux fuel n [] ++ acc := by
  intro fuel
  induction fuel with
  | zero => intro n acc h; omega
  | succ f ih =>
    intro n acc h
    by_cases h10 : n < 10
    · simp [natDigitsAux, h10]
    · simp only [natDigitsAux, h10, if_false]
      rw [ih (n / 10) _ (by omega), ih (n / 10) [Char.ofNat (48 + n % 10)] (by omega)]
      simp

theorem natDigitsAux_fuel :
    ∀ (f1 : Nat) (n : Nat) (f2 : Nat) (acc : List Char), n < f1 → n < f2 →
      natDigitsAux f1 n acc = natDigitsAux f2 n acc := by
  intro f1
  induction f1 with
  | zero => intro n f2 acc h1 _; omega
  | succ f ih =>
    intro n f2 acc h1 h2
    cases f2 with
    | zero => omega
    | succ g =>
      by_cases h10 : n < 10
      · simp [natDigitsAux, h10]
      · simp only [natDigitsAux, h10, if_false]
        exact ih (n / 10) g _ (by omega) (by omega)

theorem natDigits_succ_ge10 (n : Nat) (h : ¬ n < 10) :
    natDigits n = natDigits (n / 10) ++ [Char.ofNat (48 + n % 10)] := by
  unfold natDigits
  conv_lhs => rw [natDigitsAux, if_neg h]
  rw [natDigitsAux_fuel n (n / 10) (n / 10 + 1) _ (by omega) (by omega)]
  exact natDigitsAux_acc _ _ _ (by omega)

theorem natDigits_lt10 (n : Nat) (h : n < 10) :
    natDigits n = [Char.ofNat (48 + n % 10)] := by
  unfold natDigits
  rw [natDigitsAux, if_pos h]

theorem natDigits_all_digits : ∀ n : Nat, ∀ c ∈ natDigits n, isDigitChar c = true := by
  intro n
  induction n using Nat.strong_induction_on with
  | _ n ih =>
    by_cases h10 : n < 10
    · rw [natDigits_lt10 n h10]
      intro c hc
      simp only [List.mem_singleton] at hc
      subst hc
      simp [isDigitChar, toNat_ofNat_small (show 48 + n % 10 < 55296 by omega)]
      omega
    · rw [natDigits_succ_ge10 n h10]
      intro c hc
      rw [List.mem_append] at hc
      rcases hc with hc | hc
      · exact ih (n / 10) (by omega) c hc
      · simp only [List.mem_singleton] at hc
        subst hc
        simp [isDigitChar, toNat_ofNat_small (show 48 + n % 10 < 55296 by omega)]
        omega

theorem natDigits_ne_nil (n : Nat) : natDigits n ≠ [] := by
  by_cases h10 : n < 10
  · rw [natDigits_lt10 n h10]; simp
  · rw [natDigits_succ_ge10 n h10]; simp

def digitStep (a : Nat) (c : Char) : Nat := a * 10 + (c.toNat - 48)

theorem parseNatAux_run :
    ∀ (ds rest : List Char) (acc : Nat),
      (∀ c ∈ ds, isDigitChar c = true) →
      (∀ c r, rest = c :: r → isDigitChar c = false) →
      parseNatAux (ds ++ rest) acc = (ds.foldl digitStep acc, rest) := by
  intro ds
  induction ds with
  | nil =>
    intro rest acc _ hrest
    cases rest with
    | nil => rfl
    | cons c r =>
      simp only [List.nil_append, List.foldl_nil, parseNatAux, hrest c r rfl,
        Bool.false_eq_true, if_false]
  | cons d ds ih =>
    intro rest acc hds hrest
    have hd : isDigitChar d = true := hds d (by simp)
    simp only [List.cons_append, parseNatAux, hd, if_true, List.foldl_cons]
    exact ih rest _ (fun c hc => hds c (by simp [hc])) hrest

theorem natDigits_foldl : ∀ n : Nat, (natDigits n).foldl digitStep 0 = n := by
  intro n
  induction n using Nat.strong_induction_on with
  | _ n ih =>
    by_cases h10 : n < 10
    · rw [natDigits_lt10 n h10]
      simp [digitStep, toNat_ofNat_small (show 48 + n % 10 < 55296 by omega)]
      omega
    · rw [natDigits_succ_ge10 n h10, List.foldl_append, ih (n / 10) (by omega)]
      simp [digitStep, toNat_ofNat_small (show 48 + n % 10 < 55296 by omega)]
      omega



/-! ## String-literal round-trip -/

theorem parseStrBody_cons_quote (f : Nat) : ∀ rest : List Char,
    parseStrBody (f + 1) ('"' :: rest) = some ([], rest) := by
  intro rest
  simp [parseStrBody]

theorem parseStrBody_cons_bs (f : Nat) : ∀ rest : List Char,
    parseStrBody (f + 1) ('\\' :: rest)
      = match decodeEscape rest with
        | none => none
        | some (c2, rest2) =>
          match parseStrBody f rest2 with
          | some (cs, r) => some (c2 :: cs, r)
          | none => none := by
  intro rest
  simp [parseStrBody]

theorem parseStrBody_cons_plain (f : Nat) (c : Char)
    (h1 : c ≠ '"') (h2 : c ≠ '\\') (h3 : ¬ c.toNat < 32) : ∀ rest : List Char,
    parseStrBody (f + 1) (c :: rest)
      = match parseStrBody f rest with
        | some (cs, r) => some (c :: cs, r)
        | none => none := by
  intro rest
  simp only [parseStrBody]
  rw [if_neg h1, if_neg h2, if_neg h3]

theorem decodeEscape_short (e c2 : Char) (hne : e ≠ 'u')
    (h : unescapeShort e = some c2) : ∀ l : List Char,
    decodeEscape (e :: l) = some (c2, l) := by
  intro l
  simp only [decodeEscape]
  rw [if_neg hne, h]
  rfl

theorem decodeEscape_u_bmp (n : Nat) (hn : n < 65536)
    (h1 : ¬ (55296 ≤ n ∧ n ≤ 56319)) (h2 : ¬ (56320 ≤ n ∧ n ≤ 57343)) :
    ∀ l : List Char,
    decodeEscape ('u' :: (toHex4 n ++ l)) = some (Char.ofNat n, l) := by
  intro l
  simp only [toHex4, List.cons_append, List.nil_append]
  simp only [decodeEscape, readHex4_toHex4 n hn, eq_self_iff_true, if_true]
  rw [if_neg h1, if_neg h2]

theorem decodeEscape_u_pair (c1 c2 c3 c4 d1 d2 d3 d4 : Char) (hi lo : Nat)
    (hh : readHex4 c1 c2 c3 c4 = some hi) (hl : readHex4 d1 d2 d3 d4 = some lo)
    (hhi : 55296 ≤ hi ∧ hi ≤ 56319) (hlo : 56320 ≤ lo ∧ lo ≤ 57343) :
    ∀ l : List Char,
    decodeEscape ('u' :: c1 :: c2 :: c3 :: c4 :: '\\' :: 'u' :: d1 :: d2 :: d3 :: d4 :: l)
      = some (Char.ofNat (65536 + (hi - 55296) * 1024 + (lo - 56320)), l) := by
  intro l
  simp only [decodeEscape, hh, hl, eq_self_iff_true, and_self, if_true]
  rw [if_pos hhi, if_pos hlo]

theorem decodeEscape_u_astral (n : Nat) (hge : 65536 ≤ n) (hlt : n < 1114112) :
    ∀ l : List Char,
    decodeEscape ('u' :: (toHex4 (55296 + (n - 65536) / 1024)
        ++ ('\\' :: 'u' :: (toHex4 (56320 + (n - 65536) % 1024) ++ l))))
      = some (Char.ofNat n, l) := by
  intro l
  have hhi : 55296 + (n - 65536) / 1024 < 65536 := by omega
  have hlo : 56320 + (n - 65536) % 1024 < 65536 := by omega
  have hshape : ('u' :: (toHex4 (55296 + (n - 65536) / 1024)
      ++ ('\\' :: 'u' :: (toHex4 (56320 + (n - 65536) % 1024) ++ l))) : List Char)
      = 'u' :: hexDigitChar ((55296 + (n - 65536) / 1024) / 4096 % 16)
        :: hexDigitChar ((55296 + (n - 65536) / 1024) / 256 % 16)
        :: hexDigitChar ((55296 + (n - 65536) / 1024) / 16 % 16)
        :: hexDigitChar ((55296 + (n - 65536) / 1024) % 16)
        :: '\\' :: 'u'
        :: hexDigitChar ((56320 + (n - 65536) % 1024) / 4096 % 16)
        :: hexDigitChar ((56320 + (n - 65536) % 1024) / 256 % 16)
        :: hexDigitChar ((56320 + (n - 65536) % 1024) / 16 % 16)
        :: hexDigitChar ((56320 + (n - 65536) % 1024) % 16) :: l := by
    simp [toHex4]
  rw [hshape]
  rw [decodeEscape_u_pair _ _ _ _ _ _ _ _ _ _
    (readHex4_toHex4 _ hhi) (readHex4_toHex4 _ hlo)
    (by omega) (by omega)]
  have harith : 65536 + (55296 + (n - 65536) / 1024 - 55296) * 1024
      + (56320 + (n - 65536) % 1024 - 56320) = n := by omega
  rw [harith]

theorem parseStrBody_escape :
    ∀ (s : List Char) (fuel : Nat) (rest : List Char), s.length < fuel →
      parseStrBody fuel (escapeChars s ++ '"' :: rest) = some (s, rest) := by
  intro s
  induction s with
  | nil =>
    intro fuel rest h
    cases fuel with
    | zero => omega
    | succ f =>
      simpa using parseStrBody_cons_quote f rest
  | cons c t ih =>
    intro fuel rest h
    cases fuel with
    | zero => omega
    | succ f =>
    have hlen : t.length < f := by simp at h; omega
    show parseStrBody (f + 1) ((escapeChar c ++ escapeChars t) ++ '"' :: rest)
      = some (c :: t, rest)
    rw [List.append_assoc]
    by_cases h34 : c.toNat = 34
    · have hc : c = '"' := char_toNat_inj (h34.trans (by rfl))
      subst hc
      rw [(by decide : escapeChar '"' = ['\\', '"'])]
      simp only [List.cons_append, List.nil_append, parseStrBody_cons_bs,
        decodeEscape_short '"' '"' (by decide) (by decide), ih f rest hlen]
    by_cases h92 : c.toNat = 92
    · have hc : c = '\\' := char_toNat_inj (h92.trans (by rfl))
      subst hc
      rw [(by decide : escapeChar '\\' = ['\\', '\\'])]
      simp only [List.cons_append, List.nil_append, parseStrBody_cons_bs,
        decodeEscape_short '\\' '\\' (by decide) (by decide), ih f rest hlen]
    by_cases h8 : c.toNat = 8
    · have hc : c = Char.ofNat 8 := char_toNat_inj (h8.trans (by rfl))
      subst hc
      rw [(by decide : escapeChar (Char.ofNat 8) = ['\\', 'b'])]
      simp only [List.cons_append, List.nil_append, parseStrBody_cons_bs,
        decodeEscape_short 'b' (Char.ofNat 8) (by decide) (by decide), ih f rest hlen]
    by_cases h9 : c.toNat = 9
    · have hc : c = '\t' := char_toNat_inj (h9.trans (by rfl))
      subst hc
      rw [(by decide : escapeChar '\t' = ['\\', 't'])]
      simp only [List.cons_append, List.nil_append, parseStrBody_cons_bs,
        decodeEscape_short 't' '\t' (by decide) (by decide), ih f rest hlen]
    by_cases h10c : c.toNat = 10
    · have hc : c = '\n' := char_toNat_inj (h10c.trans (by rfl))
      subst hc
      rw [(by decide : escapeChar '\n' = ['\\', 'n'])]
      simp only [List.cons_append, List.nil_append, parseStrBody_cons_bs,
        decodeEscape_short 'n' '\n' (by decide) (by decide), ih f rest hlen]
    by_cases h12 : c.toNat = 12
    · have hc : c = Char.ofNat 12 := char_toNat_inj (h12.trans (by rfl))
      subst hc
      rw [(by decide : escapeChar (Char.ofNat 12) = ['\\', 'f'])]
      simp only [List.cons_append, List.nil_append, parseStrBody_cons_bs,
        decodeEscape_short 'f' (Char.ofNat 12) (by decide) (by decide), ih f rest hlen]
    by_cases h13 : c.toNat = 13
    · have hc : c = '\r' := char_toNat_inj (h13.trans (by rfl))
      subst hc
      rw [(by decide : escapeChar '\r' = ['\\', 'r'])]
      simp only [List.cons_append, List.nil_append, parseStrBody_cons_bs,
        decodeEscape_short 'r' '\r' (by decide) (by decide), ih f rest hlen]
    by_cases hprint : 32 ≤ c.toNat ∧ c.toNat ≤ 126
    · have he : escapeChar c = [c] := by
        unfold escapeChar
        rw [if_neg h34, if_neg h92, if_neg h8, if_neg h9, if_neg h10c, if_neg h12,
          if_neg h13, if_pos hprint]
      rw [he]
      simp only [List.singleton_append,
        parseStrBody_cons_plain f c (char_ne_of_toNat_ne (show c.toNat ≠ 34 by omega))
          (char_ne_of_toNat_ne (show c.toNat ≠ 92 by omega)) (by omega),
        ih f rest hlen]
    by_cases hbmp : c.toNat < 65536
    · have he : escapeChar c = '\\' :: 'u' :: toHex4 c.toNat := by
        unfold escapeChar
        rw [if_neg h34, if_neg h92, if_neg h8, if_neg h9, if_neg h10c, if_neg h12,
          if_neg h13, if_neg hprint, if_pos hbmp]
      rw [he]
      have hrange := char_valid_ranges c
      simp only [List.cons_append, List.append_assoc, parseStrBody_cons_bs,
        decodeEscape_u_bmp c.toNat hbmp (by omega) (by omega),
        ih f rest hlen, Char.ofNat_toNat]
    · have hge : 65536 ≤ c.toNat := by omega
      have hlt : c.toNat < 1114112 := by
        rcases char_valid_ranges c with hr | hr
        · omega
        · exact hr.2
      have he : escapeChar c = ('\\' :: 'u' :: toHex4 (55296 + (c.toNat - 65536) / 1024))
          ++ '\\' :: 'u' :: toHex4 (56320 + (c.toNat - 65536) % 1024) := by
        unfold escapeChar
        rw [if_neg h34, if_neg h92, if_neg h8, if_neg h9, if_neg h10c, if_neg h12,
          if_neg h13, if_neg hprint, if_neg hbmp]
      rw [he]
      simp only [List.cons_append, List.append_assoc, parseStrBody_cons_bs,
        decodeEscape_u_astral c.toNat hge hlt, ih f rest hlen, Char.ofNat_toNat]

theorem escapeChar_length_pos (c : Char) : 1 ≤ (escapeChar c).length := by
  unfold escapeChar
  split_ifs <;> simp [toHex4]

theorem escapeChars_length_ge : ∀ s : List Char, s.length ≤ (escapeChars s).length := by
  intro s
  induction s with
  | nil => simp [escapeChars]
  | cons c t ih =>
    show (c :: t).length ≤ (escapeChar c ++ escapeChars t).length
    have := escapeChar_length_pos c
    simp only [List.length_cons, List.length_append]
    omega

/-! ## Object keys and duplicate collapse -/

/-- Key membership in an object's field list. -/
def keyIn (k : List Char) : JsonObj → Bool
  | .nil => false
  | .cons k1 _ t => if k1 = k then true else keyIn k t

mutual
/-- No object anywhere in the value has a duplicated key (the only values
`json.dump` output can round-trip through `dict(pairs)` unchanged). -/
def noDupKeys : Json → Bool
  | .str _ => true
  | .num _ => true
  | .bool _ => true
  | .null => true
  | .arr items => noDupKeysArr items
  | .obj fields => noDupKeysObj fields
def noDupKeysArr : JsonArr → Bool
  | .nil => true
  | .cons x xs => noDupKeys x && noDupKeysArr xs
def noDupKeysObj : JsonObj → Bool
  | .nil => true
  | .cons k v t => !keyIn k t && noDupKeys v && noDupKeysObj t
end

def objAppend : JsonObj → JsonObj → JsonObj
  | .nil, o => o
  | .cons k v t, o => .cons k v (objAppend t o)

theorem objAppend_nil : ∀ o : JsonObj, objAppend o .nil = o
  | .nil => rfl
  | .cons k v t => by rw [objAppend, objAppend_nil t]

theorem objAppend_assoc : ∀ a b c : JsonObj,
    objAppend (objAppend a b) c = objAppend a (objAppend b c)
  | .nil, _, _ => rfl
  | .cons k v t, b, c => by
    simp only [objAppend]
    rw [objAppend_assoc t b c]

theorem keyIn_objAppend (k : List Char) : ∀ a b : JsonObj,
    keyIn k (objAppend a b) = (keyIn k a || keyIn k b)
  | .nil, b => by simp [objAppend, keyIn]
  | .cons k1 v1 t, b => by
    by_cases h : k1 = k
    · simp [objAppend, keyIn, h]
    · simp only [objAppend, keyIn, if_neg h]
      rw [keyIn_objAppend k t b]

theorem dictInsert_not_mem (k : List Char) (v : Json) : ∀ acc : JsonObj,
    keyIn k acc = false → dictInsert acc k v = objAppend acc (.cons k v .nil)
  | .nil, _ => rfl
  | .cons k1 v1 t, h => by
    have h1 : ¬ k1 = k := by
      intro he
      simp [keyIn, he] at h
    simp only [keyIn, if_neg h1] at h
    simp only [dictInsert, if_neg h1, objAppend]
    rw [dictInsert_not_mem k v t h]

theorem collapseAux_disjoint : ∀ (fields acc : JsonObj),
    (∀ k2, keyIn k2 acc = true → keyIn k2 fields = false) →
    noDupKeysObj fields = true →
    collapseAux acc fields = objAppend acc fields
  | .nil, acc, _, _ => by
    simp only [collapseAux]
    exact (objAppend_nil acc).symm
  | .cons k v t, acc, hdisj, hnd => by
    have hnd1 : keyIn k t = false ∧ noDupKeys v = true ∧ noDupKeysObj t = true := by
      simpa [noDupKeysObj, Bool.and_eq_true, Bool.and_assoc] using hnd
    have hkt : keyIn k t = false := hnd1.1
    have hndt : noDupKeysObj t = true := hnd1.2.2
    have hka : keyIn k acc = false := by
      cases hkacc : keyIn k acc with
      | false => rfl
      | true =>
        have := hdisj k hkacc
        simp [keyIn] at this
    have hdisj2 : ∀ k2, keyIn k2 (objAppend acc (.cons k v .nil)) = true →
        keyIn k2 t = false := by
      intro k2 h2
      rw [keyIn_objAppend] at h2
      rw [Bool.or_eq_true] at h2
      rcases h2 with h2 | h2
      · have := hdisj k2 h2
        by_cases hke : k = k2
        · simp [keyIn, hke] at this
        · simpa [keyIn, hke] using this
      · have hke : k = k2 := by
          by_cases hke : k = k2
          · exact hke
          · simp [keyIn, hke] at h2
        rw [← hke]
        exact hkt
    simp only [collapseAux]
    rw [dictInsert_not_mem k v acc hka]
    rw [collapseAux_disjoint t (objAppend acc (.cons k v .nil)) hdisj2 hndt]
    rw [objAppend_assoc]
    rfl

theorem collapseDups_nodup (fields : JsonObj) (h : noDupKeysObj fields = true) :
    collapseDups fields = fields := by
  unfold collapseDups
  rw [collapseAux_disjoint fields .nil (fun k2 hk => by simp [keyIn] at hk) h]
  rfl

/-! ## Fuel bounds for the parser -/

mutual
/-- Fuel sufficient for `parseValue` to scan the value. -/
def fuelJ : Json → Nat
  | .str _ => 1
  | .num _ => 1
  | .bool _ => 1
  | .null => 1
  | .arr .nil => 1
  | .arr (.cons x xs) => 1 + fuelArr (.cons x xs)
  | .obj .nil => 1
  | .obj (.cons k v fs) => 1 + fuelObj (.cons k v fs)
def fuelArr : JsonArr → Nat
  | .nil => 0
  | .cons x xs => 1 + fuelJ x + fuelArr xs
def fuelObj : JsonObj → Nat
  | .nil => 0
  | .cons _ v fs => 1 + fuelJ v + fuelObj fs
end

theorem fuelJ_pos (v : Json) : 1 ≤ fuelJ v := by
  cases v with
  | str s => simp [fuelJ]
  | num n => simp [fuelJ]
  | bool b => simp [fuelJ]
  | null => simp [fuelJ]
  | arr items => cases items <;> simp [fuelJ]
  | obj fields => cases fields <;> simp [fuelJ]

/-- A list whose head is not a decimal digit (a digit run ending there is
maximal); the empty list qualifies. -/
def headNotDigit : List Char → Bool
  | [] => true
  | c :: _ => !isDigitChar c

/-! ## Head-character facts and whitespace invariance of the parser -/

theorem isDigitChar_toNat {c : Char} (h : isDigitChar c = true) :
    48 ≤ c.toNat ∧ c.toNat ≤ 57 := by
  simpa [isDigitChar, Bool.and_eq_true, decide_eq_true_eq] using h

theorem not_ws_of_digit {c : Char} (h : isDigitChar c = true) : isWsChar c = false := by
  obtain ⟨h1, h2⟩ := isDigitChar_toNat h
  have hsp : (' ' : Char).toNat = 32 := by decide
  have hta : ('\t' : Char).toNat = 9 := by decide
  have hnl : ('\n' : Char).toNat = 10 := by decide
  have hcr : ('\r' : Char).toNat = 13 := by decide
  simp [isWsChar, char_ne_of_toNat_ne (show c.toNat ≠ (' ' : Char).toNat by omega),
    char_ne_of_toNat_ne (show c.toNat ≠ ('\t' : Char).toNat by omega),
    char_ne_of_toNat_ne (show c.toNat ≠ ('\n' : Char).toNat by omega),
    char_ne_of_toNat_ne (show c.toNat ≠ ('\r' : Char).toNat by omega)]

theorem digit_head_ne {c : Char} (h : isDigitChar c = true) :
    c ≠ '"' ∧ c ≠ '[' ∧ c ≠ lbrace ∧ c ≠ 't' ∧ c ≠ 'f' ∧ c ≠ 'n' ∧ c ≠ '-' ∧ c ≠ ']' := by
  obtain ⟨h1, h2⟩ := isDigitChar_toNat h
  have e1 : ('"' : Char).toNat = 34 := by decide
  have e2 : ('[' : Char).toNat = 91 := by decide
  have e3 : lbrace.toNat = 123 := by decide
  have e4 : ('t' : Char).toNat = 116 := by decide
  have e5 : ('f' : Char).toNat = 102 := by decide
  have e6 : ('n' : Char).toNat = 110 := by decide
  have e7 : ('-' : Char).toNat = 45 := by decide
  have e8 : (']' : Char).toNat = 93 := by decide
  exact ⟨char_ne_of_toNat_ne (by omega), char_ne_of_toNat_ne (by omega),
    char_ne_of_toNat_ne (by omega), char_ne_of_toNat_ne (by omega),
    char_ne_of_toNat_ne (by omega), char_ne_of_toNat_ne (by omega),
    char_ne_of_toNat_ne (by omega), char_ne_of_toNat_ne (by omega)⟩

theorem parseValue_skipWs (f : Nat) (l : List Char) :
    parseValue f (skipWs l) = parseValue f l := by
  cases f with
  | zero => rfl
  | succ g => simp only [parseValue, skipWs_idem]

theorem parseValue_ws_append (f : Nat) (ws l : List Char)
    (h : ∀ c ∈ ws, isWsChar c = true) :
    parseValue f (ws ++ l) = parseValue f l := by
  cases f with
  | zero => rfl
  | succ g => simp only [parseValue, skipWs_append_ws ws l h]

theorem parseArrItems_skipWs (f : Nat) (l : List Char) :
    parseArrItems f (skipWs l) = parseArrItems f l := by
  cases f with
  | zero => rfl
  | succ g => simp only [parseArrItems, parseValue_skipWs]

theorem parseObjItems_skipWs (f : Nat) (l : List Char) :
    parseObjItems f (skipWs l) = parseObjItems f l := by
  cases f with
  | zero => rfl
  | succ g => simp only [parseObjItems, skipWs_idem]

/-! ## Shape of dumped output -/

theorem dumpArrItems_cons_shape (li : Nat) (x : Json) (xs : JsonArr) :
    ∃ more, dumpArrItems li (.cons x xs) = mkSpaces (4 * li) ++ (dumpVal li x ++ more) := by
  cases xs with
  | nil =>
    refine ⟨[], ?_⟩
    simp [dumpArrItems]
  | cons y ys =>
    refine ⟨',' :: '\n' :: dumpArrItems li (.cons y ys), ?_⟩
    simp [dumpArrItems]

theorem dumpVal_head (lvl : Nat) (v : Json) :
    ∃ c tail, dumpVal lvl v = c :: tail ∧ isWsChar c = false ∧ c ≠ ']' := by
  cases v with
  | str s => exact ⟨'"', escapeChars s ++ ['"'], rfl, by decide, by decide⟩
  | num n =>
    cases n with
    | ofNat m =>
      cases hnd : natDigits m with
      | nil => exact absurd hnd (natDigits_ne_nil m)
      | cons c ds =>
        have hc : isDigitChar c = true := natDigits_all_digits m c (by rw [hnd]; simp)
        refine ⟨c, ds, ?_, not_ws_of_digit hc, (digit_head_ne hc).2.2.2.2.2.2.2⟩
        show natDigits m = c :: ds
        exact hnd
    | negSucc m => exact ⟨'-', natDigits (m + 1), rfl, by decide, by decide⟩
  | bool b =>
    cases b with
    | true => exact ⟨'t', ['r', 'u', 'e'], rfl, by decide, by decide⟩
    | false => exact ⟨'f', ['a', 'l', 's', 'e'], rfl, by decide, by decide⟩
  | null => exact ⟨'n', ['u', 'l', 'l'], rfl, by decide, by decide⟩
  | arr items =>
    cases items with
    | nil => exact ⟨'[', [']'], rfl, by decide, by decide⟩
    | cons x xs =>
      exact ⟨'[', '\n' :: dumpArrItems (lvl + 1) (.cons x xs)
        ++ ('\n' :: mkSpaces (4 * lvl)) ++ [']'], rfl, by decide, by decide⟩
  | obj fields =>
    cases fields with
    | nil => exact ⟨lbrace, [rbrace], rfl, by decide, by decide⟩
    | cons k v fs =>
      exact ⟨lbrace, '\n' :: dumpObjItems (lvl + 1) (.cons k v fs)
        ++ ('\n' :: mkSpaces (4 * lvl)) ++ [rbrace], rfl, by decide, by decide⟩

/-! ## Head-dispatch step lemmas for the value scanner -/

theorem parseValue_cons (f : Nat) (c : Char) (X : List Char) (hws : isWsChar c = false) :
    parseValue (f + 1) (c :: X) =
      (if c = '"' then
        match parseStrBody (X.length + 1) X with
        | some (s, r) => some (.str s, r)
        | none => none
      else if c = '[' then
        match skipWs X with
        | [] => none
        | d :: r2 =>
          if d = ']' then some (.arr .nil, r2)
          else
            match parseArrItems f (d :: r2) with
            | some (items, r3) => some (.arr items, r3)
            | none => none
      else if c = lbrace then
        match skipWs X with
        | [] => none
        | d :: r2 =>
          if d = rbrace then some (.obj .nil, r2)
          else
            match parseObjItems f (d :: r2) with
            | some (fields, r3) => some (.obj (collapseDups fields), r3)
            | none => none
      else if c = 't' then
        match X with
        | 'r' :: 'u' :: 'e' :: r => some (.bool true, r)
        | _ => none
      else if c = 'f' then
        match X with
        | 'a' :: 'l' :: 's' :: 'e' :: r => some (.bool false, r)
        | _ => none
      else if c = 'n' then
        match X with
        | 'u' :: 'l' :: 'l' :: r => some (.null, r)
        | _ => none
      else if c = '-' then
        match X with
        | [] => none
        | d :: _ =>
          if isDigitChar d then
            let pr := parseNatAux X 0
            some (.num (-(pr.1 : Int)), pr.2)
          else none
      else if isDigitChar c then
        let pr := parseNatAux (c :: X) 0
        some (.num (pr.1 : Int), pr.2)
      else none) := by
  simp only [parseValue]
  rw [skipWs_cons_not_ws hws]

theorem parseValue_quote (f : Nat) (X : List Char) :
    parseValue (f + 1) ('"' :: X) =
      match parseStrBody (X.length + 1) X with
      | some (s, r) => some (.str s, r)
      | none => none := by
  rw [parseValue_cons f '"' X (by decide), if_pos rfl]

theorem parseValue_arr_nil (f : Nat) (suffix : List Char) :
    parseValue (f + 1) ('[' :: ']' :: suffix) = some (.arr .nil, suffix) := by
  rw [parseValue_cons f '[' _ (by decide), if_neg (by decide), if_pos rfl,
    skipWs_cons_not_ws (by decide)]
  simp

theorem parseValue_lbracket_cons (f : Nat) (X : List Char) (d : Char) (r2 : List Char)
    (hskip : skipWs X = d :: r2) (hd : d ≠ ']') :
    parseValue (f + 1) ('[' :: X) =
      match parseArrItems f (d :: r2) with
      | some (items, r3) => some (.arr items, r3)
      | none => none := by
  rw [parseValue_cons f '[' X (by decide), if_neg (by decide), if_pos rfl, hskip]
  simp [hd]

theorem parseValue_obj_nil (f : Nat) (suffix : List Char) :
    parseValue (f + 1) (lbrace :: rbrace :: suffix) = some (.obj .nil, suffix) := by
  rw [parseValue_cons f lbrace _ (by decide), if_neg (by decide), if_neg (by decide),
    if_pos rfl, skipWs_cons_not_ws (by decide)]
  simp

theorem parseValue_lbrace_cons (f : Nat) (X : List Char) (d : Char) (r2 : List Char)
    (hskip : skipWs X = d :: r2) (hd : d ≠ rbrace) :
    parseValue (f + 1) (lbrace :: X) =
      match parseObjItems f (d :: r2) with
      | some (fields, r3) => some (.obj (collapseDups fields), r3)
      | none => none := by
  rw [parseValue_cons f lbrace X (by decide), if_neg (by decide), if_neg (by decide),
    if_pos rfl, hskip]
  simp [hd]

theorem parseValue_lit_true (f : Nat) (suffix : List Char) :
    parseValue (f + 1) ('t' :: 'r' :: 'u' :: 'e' :: suffix) = some (.bool true, suffix) := by
  rw [parseValue_cons f 't' _ (by decide), if_neg (by decide), if_neg (by decide),
    if_neg (by decide), if_pos rfl]
  simp

theorem parseValue_lit_false (f : Nat) (suffix : List Char) :
    parseValue (f + 1) ('f' :: 'a' :: 'l' :: 's' :: 'e' :: suffix)
      = some (.bool false, suffix) := by
  rw [parseValue_cons f 'f' _ (by decide), if_neg (by decide), if_neg (by decide),
    if_neg (by decide), if_pos rfl]
  simp

theorem parseValue_lit_null (f : Nat) (suffix : List Char) :
    parseValue (f + 1) ('n' :: 'u' :: 'l' :: 'l' :: suffix) = some (.null, suffix) := by
  rw [parseValue_cons f 'n' _ (by decide), if_neg (by decide), if_neg (by decide),
    if_neg (by decide), if_pos rfl]
  simp

theorem parseValue_digit (f : Nat) (c : Char) (X : List Char) (hdig : isDigitChar c = true) :
    parseValue (f + 1) (c :: X)
      = some (.num ((parseNatAux (c :: X) 0).1 : Int), (parseNatAux (c :: X) 0).2) := by
  obtain ⟨n1, n2, n3, n4, n5, n6, n7, _⟩ := digit_head_ne hdig
  rw [parseValue_cons f c X (not_ws_of_digit hdig), if_neg n1, if_neg n2, if_neg n3,
    if_neg n4, if_neg n5, if_neg n6, if_neg n7, if_pos hdig]

theorem parseValue_minus (f : Nat) (d : Char) (r : List Char) (hd : isDigitChar d = true) :
    parseValue (f + 1) ('-' :: d :: r)
      = some (.num (-((parseNatAux (d :: r) 0).1 : Int)), (parseNatAux (d :: r) 0).2) := by
  rw [parseValue_cons f '-' _ (by decide), if_neg (by decide), if_neg (by decide),
    if_neg (by decide), if_neg (by decide), if_neg (by decide), if_neg (by decide),
    if_pos rfl]
  simp [hd]

theorem parseArrItems_step (g : Nat) (l : List Char) (x : Json) (R : List Char)
    (hv : parseValue g l = some (x, R)) :
    parseArrItems (g + 1) l =
      match skipWs R with
      | ']' :: r2 => some (.cons x .nil, r2)
      | ',' :: r2 =>
        match parseArrItems g r2 with
        | some (vs, r3) => some (.cons x vs, r3)
        | none => none
      | _ => none := by
  simp only [parseArrItems, hv]

theorem parseArrItems_last (g : Nat) (l : List Char) (x : Json) (R suffix : List Char)
    (hv : parseValue g l = some (x, R)) (hskip : skipWs R = ']' :: suffix) :
    parseArrItems (g + 1) l = some (.cons x .nil, suffix) := by
  rw [parseArrItems_step g l x R hv, hskip]
  simp

theorem parseArrItems_comma (g : Nat) (l : List Char) (x : Json) (R r2 : List Char)
    (hv : parseValue g l = some (x, R)) (hskip : skipWs R = ',' :: r2) :
    parseArrItems (g + 1) l =
      match parseArrItems g r2 with
      | some (vs, r3) => some (.cons x vs, r3)
      | none => none := by
  rw [parseArrItems_step g l x R hv, hskip]
  simp

theorem parseObjItems_last (g : Nat) (X r0 k r1 r2 : List Char) (v : Json)
    (r3 r4 : List Char)
    (hskip : skipWs X = '"' :: r0)
    (hk : parseStrBody (r0.length + 1) r0 = some (k, r1))
    (hcolon : skipWs r1 = ':' :: r2)
    (hv : parseValue g r2 = some (v, r3))
    (hend : skipWs r3 = rbrace :: r4) :
    parseObjItems (g + 1) X = some (.cons k v .nil, r4) := by
  simp only [parseObjItems, hskip, hk, hcolon, hv, hend]
  simp

theorem parseObjItems_comma (g : Nat) (X r0 k r1 r2 : List Char) (v : Json)
    (r3 r4 : List Char)
    (hskip : skipWs X = '"' :: r0)
    (hk : parseStrBody (r0.length + 1) r0 = some (k, r1))
    (hcolon : skipWs r1 = ':' :: r2)
    (hv : parseValue g r2 = some (v, r3))
    (hcomma : skipWs r3 = ',' :: r4) :
    parseObjItems (g + 1) X =
      match parseObjItems g r4 with
      | some (fields, r5) => some (.cons k v fields, r5)
      | none => none := by
  simp only [parseObjItems, hskip, hk, hcolon, hv, hcomma]
  have hne : ¬ (',' : Char) = rbrace := by decide
  simp [hne]

theorem dumpObjItems_cons_shape (li : Nat) (k : List Char) (v : Json) (fs : JsonObj) :
    ∃ more, dumpObjItems li (.cons k v fs)
      = mkSpaces (4 * li) ++ ('"' :: (escapeChars k
        ++ ('"' :: (':' :: (' ' :: (dumpVal li v ++ more)))))) := by
  cases fs with
  | nil =>
    refine ⟨[], ?_⟩
    simp [dumpObjItems]
  | cons k2 v2 fs2 =>
    refine ⟨',' :: '\n' :: dumpObjItems li (.cons k2 v2 fs2), ?_⟩
    simp [dumpObjItems]

theorem ws_append_ws {ws1 ws2 : List Char} (h1 : ∀ c ∈ ws1, isWsChar c = true)
    (h2 : ∀ c ∈ ws2, isWsChar c = true) : ∀ c ∈ ws1 ++ ws2, isWsChar c = true := by
  intro c hc
  rcases List.mem_append.mp hc with hc | hc
  · exact h1 c hc
  · exact h2 c hc

/-! ## dump/parse round trip -/

mutual

theorem parseValue_dump (v : Json) (lvl fu : Nat) (suffix : List Char)
    (hnd : noDupKeys v = true) (hfu : fuelJ v ≤ fu) (hsuf : headNotDigit suffix = true) :
    parseValue fu (dumpVal lvl v ++ suffix) = some (v, suffix) := by
  cases fu with
  | zero => exact absurd hfu (by have := fuelJ_pos v; omega)
  | succ f =>
    cases v with
    | str s =>
      have hshape : dumpVal lvl (Json.str s) ++ suffix
          = '"' :: (escapeChars s ++ ('"' :: suffix)) := by
        simp [dumpVal]
      rw [hshape, parseValue_quote]
      rw [parseStrBody_escape s _ suffix
        (by have h := escapeChars_length_ge s
            simp only [List.length_append, List.length_cons]
            omega)]
    | num n =>
      cases n with
      | ofNat mn =>
        cases hnd2 : natDigits mn with
        | nil => exact absurd hnd2 (natDigits_ne_nil mn)
        | cons c ds =>
          have hdigc : isDigitChar c = true :=
            natDigits_all_digits mn c (by rw [hnd2]; simp)
          have hall : ∀ ch ∈ (c :: ds : List Char), isDigitChar ch = true := by
            rw [← hnd2]
            exact natDigits_all_digits mn
          have hshape : dumpVal lvl (Json.num (Int.ofNat mn)) ++ suffix
              = c :: (ds ++ suffix) := by
            simp [dumpVal, dumpInt, hnd2]
          rw [hshape, parseValue_digit f c _ hdigc]
          have hrun : parseNatAux ((c :: ds) ++ suffix) 0
              = ((c :: ds).foldl digitStep 0, suffix) :=
            parseNatAux_run (c :: ds) suffix 0 hall
              (by intro ch r he
                  rw [he] at hsuf
                  simpa [headNotDigit] using hsuf)
          simp only [List.cons_append] at hrun
          rw [hrun]
          have hfold : (c :: ds).foldl digitStep 0 = mn := by
            rw [← hnd2]
            exact natDigits_foldl mn
          rw [hfold]
          rfl
      | negSucc mn =>
        cases hnd2 : natDigits (mn + 1) with
        | nil => exact absurd hnd2 (natDigits_ne_nil (mn + 1))
        | cons c ds =>
          have hdigc : isDigitChar c = true :=
            natDigits_all_digits (mn + 1) c (by rw [hnd2]; simp)
          have hall : ∀ ch ∈ (c :: ds : List Char), isDigitChar ch = true := by
            rw [← hnd2]
            exact natDigits_all_digits (mn + 1)
          have hshape : dumpVal lvl (Json.num (Int.negSucc mn)) ++ suffix
              = '-' :: (c :: (ds ++ suffix)) := by
            simp [dumpVal, dumpInt, hnd2]
          rw [hshape, parseValue_minus f c _ hdigc]
          have hrun : parseNatAux ((c :: ds) ++ suffix) 0
              = ((c :: ds).foldl digitStep 0, suffix) :=
            parseNatAux_run (c :: ds) suffix 0 hall
              (by intro ch r he
                  rw [he] at hsuf
                  simpa [headNotDigit] using hsuf)
          simp only [List.cons_append] at hrun
          rw [hrun]
          have hfold : (c :: ds).foldl digitStep 0 = mn + 1 := by
            rw [← hnd2]
            exact natDigits_foldl (mn + 1)
          rw [hfold]
          rfl
    | bool b =>
      cases b with
      | true =>
        have hshape : dumpVal lvl (Json.bool true) ++ suffix
            = 't' :: 'r' :: 'u' :: 'e' :: suffix := by simp [dumpVal]
        rw [hshape, parseValue_lit_true]
      | false =>
        have hshape : dumpVal lvl (Json.bool false) ++ suffix
            = 'f' :: 'a' :: 'l' :: 's' :: 'e' :: suffix := by simp [dumpVal]
        rw [hshape, parseValue_lit_false]
    | null =>
      have hshape : dumpVal lvl Json.null ++ suffix
          = 'n' :: 'u' :: 'l' :: 'l' :: suffix := by simp [dumpVal]
      rw [hshape, parseValue_lit_null]
    | arr items =>
      cases items with
      | nil =>
        have hshape : dumpVal lvl (Json.arr JsonArr.nil) ++ suffix
            = '[' :: ']' :: suffix := by simp [dumpVal]
        rw [hshape, parseValue_arr_nil]
      | cons x xs =>
        have hndA : noDupKeysArr (JsonArr.cons x xs) = true := by
          simpa [noDupKeys] using hnd
        have hfuA : fuelArr (JsonArr.cons x xs) ≤ f := by
          have h1 : fuelJ (Json.arr (JsonArr.cons x xs))
              = 1 + fuelArr (JsonArr.cons x xs) := by simp [fuelJ]
          omega
        obtain ⟨d, dtail, hdx, hdws, hdbr⟩ := dumpVal_head (lvl + 1) x
        obtain ⟨more, hmore⟩ := dumpArrItems_cons_shape (lvl + 1) x xs
        have hshape : dumpVal lvl (Json.arr (JsonArr.cons x xs)) ++ suffix
            = '[' :: ('\n' :: (dumpArrItems (lvl + 1) (JsonArr.cons x xs)
              ++ ('\n' :: (mkSpaces (4 * lvl) ++ (']' :: suffix))))) := by
          simp [dumpVal]
        have hskip : skipWs ('\n' :: (dumpArrItems (lvl + 1) (JsonArr.cons x xs)
              ++ ('\n' :: (mkSpaces (4 * lvl) ++ (']' :: suffix)))))
            = d :: (dtail ++ (more ++ ('\n' :: (mkSpaces (4 * lvl)
              ++ (']' :: suffix))))) := by
          rw [skipWs_cons_ws (by decide), hmore, List.append_assoc,
            skipWs_append_ws (mkSpaces (4 * (lvl + 1))) _ (mkSpaces_all_ws _),
            List.append_assoc, hdx, List.cons_append]
          exact skipWs_cons_not_ws hdws _
        rw [hshape, parseValue_lbracket_cons f _ d _ hskip hdbr]
        have harr : parseArrItems f
            (d :: (dtail ++ (more ++ ('\n' :: (mkSpaces (4 * lvl) ++ (']' :: suffix))))))
            = some (JsonArr.cons x xs, suffix) := by
          rw [← hskip, parseArrItems_skipWs]
          exact parseArrItems_dump x xs (lvl + 1) f (4 * lvl) ['\n'] suffix
            (by intro c hc; simp at hc; subst hc; decide) hndA hfuA
        rw [harr]
    | obj fields =>
      cases fields with
      | nil =>
        have hshape : dumpVal lvl (Json.obj JsonObj.nil) ++ suffix
            = lbrace :: rbrace :: suffix := by simp [dumpVal]
        rw [hshape, parseValue_obj_nil]
      | cons k v fs =>
        have hndO : noDupKeysObj (JsonObj.cons k v fs) = true := by
          simpa [noDupKeys] using hnd
        have hfuO : fuelObj (JsonObj.cons k v fs) ≤ f := by
          have h1 : fuelJ (Json.obj (JsonObj.cons k v fs))
              = 1 + fuelObj (JsonObj.cons k v fs) := by simp [fuelJ]
          omega
        obtain ⟨more, hmore⟩ := dumpObjItems_cons_shape (lvl + 1) k v fs
        have hshape : dumpVal lvl (Json.obj (JsonObj.cons k v fs)) ++ suffix
            = lbrace :: ('\n' :: (dumpObjItems (lvl + 1) (JsonObj.cons k v fs)
              ++ ('\n' :: (mkSpaces (4 * lvl) ++ (rbrace :: suffix))))) := by
          simp [dumpVal]
        have hskip : skipWs ('\n' :: (dumpObjItems (lvl + 1) (JsonObj.cons k v fs)
              ++ ('\n' :: (mkSpaces (4 * lvl) ++ (rbrace :: suffix)))))
            = '"' :: (escapeChars k ++ ('"' :: (':' :: (' ' :: (dumpVal (lvl + 1) v
              ++ (more ++ ('\n' :: (mkSpaces (4 * lvl) ++ (rbrace :: suffix))))))))) := by
          rw [skipWs_cons_ws (by decide), hmore, List.append_assoc,
            skipWs_append_ws (mkSpaces (4 * (lvl + 1))) _ (mkSpaces_all_ws _),
            List.cons_append, skipWs_cons_not_ws (by decide)]
          simp [List.append_assoc]
        rw [hshape, parseValue_lbrace_cons f _ '"' _ hskip (by decide)]
        have hobj : parseObjItems f ('"' :: (escapeChars k ++ ('"' :: (':' :: (' ' ::
              (dumpVal (lvl + 1) v ++ (more ++ ('\n' :: (mkSpaces (4 * lvl)
                ++ (rbrace :: suffix))))))))))
            = some (JsonObj.cons k v fs, suffix) := by
          rw [← hskip, parseObjItems_skipWs]
          exact parseObjItems_dump k v fs (lvl + 1) f (4 * lvl) ['\n'] suffix
            (by intro c hc; simp at hc; subst hc; decide) hndO hfuO
        rw [hobj]
        show some (Json.obj (collapseDups (JsonObj.cons k v fs)), suffix)
          = some (Json.obj (JsonObj.cons k v fs), suffix)
        rw [collapseDups_nodup _ hndO]
termination_by sizeOf v

theorem parseArrItems_dump (x : Json) (xs : JsonArr) (li fu m : Nat)
    (ws suffix : List Char) (hws : ∀ c ∈ ws, isWsChar c = true)
    (hnd : noDupKeysArr (.cons x xs) = true) (hfu : fuelArr (.cons x xs) ≤ fu) :
    parseArrItems fu (ws ++ (dumpArrItems li (.cons x xs)
      ++ ('\n' :: (mkSpaces m ++ (']' :: suffix)))))
      = some (.cons x xs, suffix) := by
  cases fu with
  | zero =>
    exfalso
    have h1 : fuelArr (JsonArr.cons x xs) = 1 + fuelJ x + fuelArr xs := by simp [fuelArr]
    omega
  | succ g =>
    have hnd1 : noDupKeys x = true ∧ noDupKeysArr xs = true := by
      simpa [noDupKeysArr, Bool.and_eq_true] using hnd
    have hfu1 : fuelArr (JsonArr.cons x xs) = 1 + fuelJ x + fuelArr xs := by
      simp [fuelArr]
    have hfux : fuelJ x ≤ g := by omega
    cases xs with
    | nil =>
      have hsh : ws ++ (dumpArrItems li (JsonArr.cons x JsonArr.nil)
          ++ ('\n' :: (mkSpaces m ++ (']' :: suffix))))
          = (ws ++ mkSpaces (4 * li)) ++ (dumpVal li x
            ++ ('\n' :: (mkSpaces m ++ (']' :: suffix)))) := by
        simp [dumpArrItems, List.append_assoc]
      rw [hsh]
      have hv : parseValue g ((ws ++ mkSpaces (4 * li)) ++ (dumpVal li x
          ++ ('\n' :: (mkSpaces m ++ (']' :: suffix)))))
          = some (x, '\n' :: (mkSpaces m ++ (']' :: suffix))) := by
        rw [parseValue_ws_append g _ _ (ws_append_ws hws (mkSpaces_all_ws _))]
        exact parseValue_dump x li g _ hnd1.1 hfux rfl
      exact parseArrItems_last g _ x _ suffix hv (by
        rw [skipWs_cons_ws (by decide), skipWs_append_ws _ _ (mkSpaces_all_ws _)]
        exact skipWs_cons_not_ws (by decide) _)
    | cons y ys =>
      have hsh : ws ++ (dumpArrItems li (JsonArr.cons x (JsonArr.cons y ys))
          ++ ('\n' :: (mkSpaces m ++ (']' :: suffix))))
          = (ws ++ mkSpaces (4 * li)) ++ (dumpVal li x ++ (',' :: ('\n' ::
            (dumpArrItems li (JsonArr.cons y ys)
              ++ ('\n' :: (mkSpaces m ++ (']' :: suffix))))))) := by
        simp [dumpArrItems, List.append_assoc]
      rw [hsh]
      have hv : parseValue g ((ws ++ mkSpaces (4 * li)) ++ (dumpVal li x ++ (',' :: ('\n' ::
          (dumpArrItems li (JsonArr.cons y ys)
            ++ ('\n' :: (mkSpaces m ++ (']' :: suffix))))))))
          = some (x, ',' :: ('\n' :: (dumpArrItems li (JsonArr.cons y ys)
            ++ ('\n' :: (mkSpaces m ++ (']' :: suffix)))))) := by
        rw [parseValue_ws_append g _ _ (ws_append_ws hws (mkSpaces_all_ws _))]
        exact parseValue_dump x li g _ hnd1.1 hfux rfl
      rw [parseArrItems_comma g _ x _ _ hv (skipWs_cons_not_ws (by decide) _)]
      have hfuy : fuelArr (JsonArr.cons y ys) ≤ g := by
        have h2 : fuelArr (JsonArr.cons x (JsonArr.cons y ys))
            = 1 + fuelJ x + fuelArr (JsonArr.cons y ys) := by simp [fuelArr]
        omega
      have hrec : parseArrItems g ('\n' :: (dumpArrItems li (JsonArr.cons y ys)
          ++ ('\n' :: (mkSpaces m ++ (']' :: suffix)))))
          = some (JsonArr.cons y ys, suffix) :=
        parseArrItems_dump y ys li g m ['\n'] suffix
          (by intro c hc; simp at hc; subst hc; decide) hnd1.2 hfuy
      rw [hrec]
termination_by sizeOf (JsonArr.cons x xs)

theorem parseObjItems_dump (k : List Char) (v : Json) (fs : JsonObj) (li fu m : Nat)
    (ws suffix : List Char) (hws : ∀ c ∈ ws, isWsChar c = true)
    (hnd : noDupKeysObj (.cons k v fs) = true) (hfu : fuelObj (.cons k v fs) ≤ fu) :
    parseObjItems fu (ws ++ (dumpObjItems li (.cons k v fs)
      ++ ('\n' :: (mkSpaces m ++ (rbrace :: suffix)))))
      = some (.cons k v fs, suffix) := by
  cases fu with
  | zero =>
    exfalso
    have h1 : fuelObj (JsonObj.cons k v fs) = 1 + fuelJ v + fuelObj fs := by
      simp [fuelObj]
    omega
  | succ g =>
    have hnd1 : keyIn k fs = false ∧ noDupKeys v = true ∧ noDupKeysObj fs = true := by
      simpa [noDupKeysObj, Bool.and_eq_true, Bool.and_assoc] using hnd
    have hfu1 : fuelObj (JsonObj.cons k v fs) = 1 + fuelJ v + fuelObj fs := by
      simp [fuelObj]
    have hfuv : fuelJ v ≤ g := by omega
    cases fs with
    | nil =>
      have hsh : ws ++ (dumpObjItems li (JsonObj.cons k v JsonObj.nil)
          ++ ('\n' :: (mkSpaces m ++ (rbrace :: suffix))))
          = (ws ++ mkSpaces (4 * li)) ++ ('"' :: (escapeChars k ++ ('"' :: (':' :: (' ' ::
            (dumpVal li v ++ ('\n' :: (mkSpaces m ++ (rbrace :: suffix))))))))) := by
        simp [dumpObjItems, List.append_assoc]
      rw [hsh]
      refine parseObjItems_last g _ _ k _ _ v _ suffix
        (by
          rw [skipWs_append_ws _ _ (ws_append_ws hws (mkSpaces_all_ws _))]
          exact skipWs_cons_not_ws (by decide) _)
        (parseStrBody_escape k _ _
          (by have h := escapeChars_length_ge k
              simp only [List.length_append, List.length_cons]
              omega))
        (skipWs_cons_not_ws (by decide) _)
        ((parseValue_ws_append g [' '] _
            (by intro c hc; simp at hc; subst hc; decide)).trans
          (parseValue_dump v li g ('\n' :: (mkSpaces m ++ (rbrace :: suffix)))
            hnd1.2.1 hfuv rfl))
        ?_
      rw [skipWs_cons_ws (by decide), skipWs_append_ws _ _ (mkSpaces_all_ws _)]
      exact skipWs_cons_not_ws (by decide) _
    | cons k2 v2 fs2 =>
      have hsh : ws ++ (dumpObjItems li (JsonObj.cons k v (JsonObj.cons k2 v2 fs2))
          ++ ('\n' :: (mkSpaces m ++ (rbrace :: suffix))))
          = (ws ++ mkSpaces (4 * li)) ++ ('"' :: (escapeChars k ++ ('"' :: (':' :: (' ' ::
            (dumpVal li v ++ (',' :: ('\n' :: (dumpObjItems li (JsonObj.cons k2 v2 fs2)
              ++ ('\n' :: (mkSpaces m ++ (rbrace :: suffix)))))))))))) := by
        simp [dumpObjItems, List.append_assoc]
      rw [hsh]
      rw [parseObjItems_comma g _ _ k _ _ v _ _
        (by
          rw [skipWs_append_ws _ _ (ws_append_ws hws (mkSpaces_all_ws _))]
          exact skipWs_cons_not_ws (by decide) _)
        (parseStrBody_escape k _ _
          (by have h := escapeChars_length_ge k
              simp only [List.length_append, List.length_cons]
              omega))
        (skipWs_cons_not_ws (by decide) _)
        ((parseValue_ws_append g [' '] _
            (by intro c hc; simp at hc; subst hc; decide)).trans
          (parseValue_dump v li g (',' :: ('\n' ::
              (dumpObjItems li (JsonObj.cons k2 v2 fs2)
                ++ ('\n' :: (mkSpaces m ++ (rbrace :: suffix))))))
            hnd1.2.1 hfuv rfl))
        (skipWs_cons_not_ws (by decide) _)]
      have hfu2 : fuelObj (JsonObj.cons k2 v2 fs2) ≤ g := by
        have h2 : fuelObj (JsonObj.cons k v (JsonObj.cons k2 v2 fs2))
            = 1 + fuelJ v + fuelObj (JsonObj.cons k2 v2 fs2) := by simp [fuelObj]
        omega
      have hrec : parseObjItems g ('\n' :: (dumpObjItems li (JsonObj.cons k2 v2 fs2)
          ++ ('\n' :: (mkSpaces m ++ (rbrace :: suffix)))))
          = some (JsonObj.cons k2 v2 fs2, suffix) :=
        parseObjItems_dump k2 v2 fs2 li g m ['\n'] suffix
          (by intro c hc; simp at hc; subst hc; decide) hnd1.2.2 hfu2
      rw [hrec]
termination_by sizeOf (JsonObj.cons k v fs)

end

mutual

theorem fuelJ_le_dump (v : Json) (lvl : Nat) : fuelJ v ≤ (dumpVal lvl v).length + 1 := by
  cases v with
  | str s => simp only [fuelJ]; omega
  | num n => simp only [fuelJ]; omega
  | bool b => simp only [fuelJ]; omega
  | null => simp only [fuelJ]; omega
  | arr items =>
    cases items with
    | nil => simp only [fuelJ]; omega
    | cons x xs =>
      have h1 := fuelArr_le_dump x xs (lvl + 1)
      simp only [fuelJ, dumpVal, List.length_cons, List.length_append, mkSpaces,
        List.length_replicate]
      omega
  | obj fields =>
    cases fields with
    | nil => simp only [fuelJ]; omega
    | cons k v fs =>
      have h1 := fuelObj_le_dump k v fs (lvl + 1)
      simp only [fuelJ, dumpVal, List.length_cons, List.length_append, mkSpaces,
        List.length_replicate]
      omega
termination_by sizeOf v

theorem fuelArr_le_dump (x : Json) (xs : JsonArr) (li : Nat) :
    fuelArr (.cons x xs) ≤ (dumpArrItems li (.cons x xs)).length + 2 := by
  cases xs with
  | nil =>
    have h1 := fuelJ_le_dump x li
    simp only [fuelArr, dumpArrItems, List.length_append, mkSpaces, List.length_replicate]
    omega
  | cons y ys =>
    have h1 := fuelJ_le_dump x li
    have h2 := fuelArr_le_dump y ys li
    simp only [fuelArr] at h2 ⊢
    simp only [dumpArrItems, List.length_append, List.length_cons, mkSpaces,
      List.length_replicate]
    omega
termination_by sizeOf (JsonArr.cons x xs)

theorem fuelObj_le_dump (k : List Char) (v : Json) (fs : JsonObj) (li : Nat) :
    fuelObj (.cons k v fs) ≤ (dumpObjItems li (.cons k v fs)).length + 2 := by
  cases fs with
  | nil =>
    have h1 := fuelJ_le_dump v li
    simp only [fuelObj, dumpObjItems, List.length_append, List.length_cons, mkSpaces,
      List.length_replicate]
    omega
  | cons k2 v2 fs2 =>
    have h1 := fuelJ_le_dump v li
    have h2 := fuelObj_le_dump k2 v2 fs2 li
    simp only [fuelObj] at h2 ⊢
    simp only [dumpObjItems, List.length_append, List.length_cons, mkSpaces,
      List.length_replicate]
    omega
termination_by sizeOf (JsonObj.cons k v fs)

end

/-- **C10**: for every JSON value with no duplicated object key (and every
value `json.dump` writes for a timeline is such), `json.load` of the dumped
text returns exactly that value, so persisting it again reproduces the same
bytes — no field reordering, stable key order: `persist(load(date))` applied
twice is byte-identical. -/
theorem C10_persist_load_roundtrip (v : Json) (h : noDupKeys v = true) :
    jsonLoads (jsonDumps v) = some v ∧
    (jsonLoads (jsonDumps v)).map jsonDumps = some (jsonDumps v) := by
  have h0 : dumpVal 0 v ++ [] = dumpVal 0 v := List.append_nil _
  have hparse := parseValue_dump v 0 ((dumpVal 0 v).length + 1) [] h
    (fuelJ_le_dump v 0) rfl
  rw [h0] at hparse
  have h1 : jsonLoads (jsonDumps v) = some v := by
    simp only [jsonLoads, jsonDumps]
    rw [hparse]
    rfl
  refine ⟨h1, ?_⟩
  rw [h1]
  rfl

/-- A concrete day file: two records as `log_current_activity` writes them. -/
def c10Val : Json :=
  .arr (.cons (.obj
      (.cons "timestamp".data (.str "2025-01-01T09:00:00".data)
      (.cons "app".data (.str "Editor".data)
      (.cons "title".data (.str "file.py — Café".data)
      (.cons "category".data (.str "Coding".data)
      (.cons "duration".data (.num 30)
      (.cons "is_typing".data (.bool true) .nil)))))))
    (.cons (.obj
      (.cons "timestamp".data (.str "2025-01-01T09:00:30".data)
      (.cons "app".data (.str "Idle".data)
      (.cons "title".data (.str "User inactive".data)
      (.cons "category".data (.str "Idle".data)
      (.cons "duration".data (.num 30) .nil))))))
    .nil))

set_option maxRecDepth 10000 in
theorem C10_persist_load_roundtrip_witness :
    noDupKeys c10Val = true ∧
    (jsonLoads (jsonDumps c10Val) = some c10Val ∧
     (jsonLoads (jsonDumps c10Val)).map jsonDumps = some (jsonDumps c10Val)) :=
  ⟨by decide, C10_persist_load_roundtrip c10Val (by decide)⟩

/-- **C1** (counterexample): `_load_today_activities` hands the file content
straight to `json.load` with no exception handler, so a present file holding
invalid JSON raises `json.JSONDecodeError` to the caller instead of producing
an empty timeline with a warning. -/
theorem C1_cex_malformed_json_raises :
    loadTodayActivities (some ("nonsense".data)) = .error .jsonDecodeError := by
  rfl

/-- **C1** (amended): loading a day's activities yields the empty timeline
when the file is missing, the parsed value when its content is valid JSON,
and **raises** `json.JSONDecodeError` when the content is malformed — there
is no catch-warn-and-return-empty fallback in `_load_today_activities`. -/
theorem C1_amended_load_behavior (c : List Char) :
    loadTodayActivities none = .ok (.arr .nil) ∧
    (jsonLoads c = none → loadTodayActivities (some c) = .error .jsonDecodeError) ∧
    (∀ v, jsonLoads c = some v → loadTodayActivities (some c) = .ok v) := by
  refine ⟨rfl, ?_, ?_⟩
  · intro h
    simp [loadTodayActivities, h]
  · intro v h
    simp [loadTodayActivities, h]

set_option maxRecDepth 10000 in
theorem C1_amended_load_behavior_witness :
    loadTodayActivities none = .ok (.arr .nil) ∧
    jsonLoads ("oops".data) = none ∧
    loadTodayActivities (some ("oops".data)) = .error .jsonDecodeError :=
  ⟨(C1_amended_load_behavior []).1, by rfl,
   (C1_amended_load_behavior ("oops".data)).2.1 (by rfl)⟩
